import Mathlib

/-!
Verification of the MeshXT packet codec: a shallow embedding in Lean of the
GF(2^8) arithmetic, Reed-Solomon forward error correction, Smaz-style
dictionary compression and packet framing found in the MeshXT sources
(src/index.js fec section, src/compress.js, src/packet.js), together with
proofs and refutations of the specified properties.

Machine integers (JS Uint8Array cells, byte values) are modelled as Nat with
explicit bounds; fallible operations (JS throw) are modelled with Except.
JS loops are modelled as structural recursion, with an explicit fuel argument
when the loop consumes a data buffer; every call site passes enough fuel for
the loop to run to completion, mirroring the bounded JS loops.
-/

set_option maxRecDepth 100000
set_option maxHeartbeats 4000000

namespace MeshXT

-- ===========================================================================
-- GF(2^8) arithmetic  (src/index.js, fec section: initTables, gfMul, gfDiv,
-- gfPow, gfInverse; primitive polynomial 0x11D)
-- ===========================================================================

def PRIM_POLY : Nat := 0x11D

/-- One iteration of the table-building loop body of initTables:
`x <<= 1; if (x & 0x100) x ^= PRIM_POLY;`. -/
def gfStep (x : Nat) : Nat :=
  let x2 := x <<< 1
  if x2 &&& 0x100 ≠ 0 then x2 ^^^ PRIM_POLY else x2

/-- The successive values taken by `x` in initTables: `n` entries starting
from `x`. -/
def gfExpAux : Nat → Nat → List Nat
  | 0, _ => []
  | n+1, x => x :: gfExpAux n (gfStep x)

/-- Entries 0..254 of the `gfExp` table as written by the first initTables
loop (`gfExp[i] = x; gfLog[x] = i;`). -/
def gfExpTable : List Nat := gfExpAux 255 1

/-- The `gfLog` table: a 256-entry array, initially zero (Uint8Array), with
`gfLog[gfExp[i]] = i` written for i = 0..254. -/
def gfLogTable : List Nat :=
  (List.range 255).foldl (fun acc i => acc.set (gfExpTable.getD i 0) i)
    (List.replicate 256 0)

/-- The full 512-entry `gfExp` array after the duplication loop
`for (i = 255; i < 512; i++) gfExp[i] = gfExp[i - 255]`; unfolding that
recurrence gives two copies of the 255-entry cycle followed by its first
two entries. -/
def gfExpArr : List Nat := gfExpTable ++ gfExpTable ++ gfExpTable.take 2

/-- Pack a list of bytes into one natural, byte i at bit offset 8*i.  Used
to mirror the tables as flat constants that the kernel can index in O(1). -/
def packNat (l : List Nat) : Nat := l.foldr (fun b acc => b + (acc <<< 8)) 0

/-- Read byte i of a packed table. -/
def byteAt (n i : Nat) : Nat := (n >>> (8 * i)) &&& 0xFF

/-- The 512-entry `gfExp` array as a packed constant.  Theorem
`packNat_gfExpArr` proves this literal equal to the table built by the
initTables loops, and `gfExp_faithful` transports element access. -/
def gfExpP : Nat := 8184081236394367404529253767197239901652476918051906453581916390082557586393941557061145551369454814539669642981752645182577897240615917697220071158176216732135325601790084735155041990369931105273132056975985246839705190007956113001902948093410190740120782735893513487454457231422466272520547733420909371057425285453789048768352211667608359997711508624455774454101702159587653641732440124421617475721908672119268359371202938998996790008900638292748900664743119430585390808678130782799074588645236877200580287075183386838870650421605151742190341403266378112372405182206969993770014381609186149907246320952009887895799133279570130969458122264524651418435771517245052182180671515372287822556079268759501773495380713865565884978347613359329597696901277759021166579218225463208059794976529403712175540322981370479816920325573825743685815188491063549386091642365454007414336430623470576126830825305756131741055451647366164150421374324974244163860046191305568404059886025067930555660188832590973433081188317525756949063540807905419621837263010825252757456713505146296656478447694378938251707118710064593706383886851834442449202056479427016777533130991701784638205711470202071851360346506205587892745725182619981923995601378307584993526273

/-- The 256-entry `gfLog` array as a packed constant (see
`packNat_gfLogTable`, `gfLog_faithful`). -/
def gfLogP : Nat := 22135253156888987530748098150270024343632497605293634117281264061560962248099620766229961468867162294233796152347975563017024165690400661622462404646302566225833645086064538892198543335321514950294300187779610338557442029018619797274438901674641748676613670242915365385819254959901651105240253464034662486586186382979728982817772067067513442677601938078891989292316012868233806586592927239821351197800766822366321181463280924672822998103315976779850880337712374790938628529953751181886374687897611504386983350015558142994211516619836411558782076806704747441947939324473761869443721989389604670425385080942269787340800

/-- `gfExp[i]`: table read, 0 (the Uint8Array out-of-bounds/default view)
beyond index 511. -/
def gfExp (i : Nat) : Nat := byteAt gfExpP i

/-- `gfLog[v]`: table read, 0 beyond index 255. -/
def gfLog (v : Nat) : Nat := byteAt gfLogP v

/-- `gfMul(a, b)`: `if (a === 0 || b === 0) return 0; return
gfExp[gfLog[a] + gfLog[b]];`. -/
def gfMul (a b : Nat) : Nat :=
  if a = 0 ∨ b = 0 then 0 else gfExp (gfLog a + gfLog b)

/-- `gfDiv(a, b)`: `if (a === 0) return 0; return
gfExp[(gfLog[a] + 255 - gfLog[b]) % 255];`.  The JS function throws on
b = 0; every call site in the claims and in the decoder guards b ≠ 0,
so the b = 0 branch of this total model is never relied upon. -/
def gfDiv (a b : Nat) : Nat :=
  if a = 0 then 0 else gfExp ((gfLog a + 255 - gfLog b) % 255)

/-- `gfPow(x, power) = gfExp[(gfLog[x] * power) % 255]`. -/
def gfPow (x power : Nat) : Nat := gfExp ((gfLog x * power) % 255)

/-- `gfInverse(x) = gfExp[255 - gfLog[x]]`. -/
def gfInverse (x : Nat) : Nat := gfExp (255 - gfLog x)

/-- Iterated `gfStep`: multiplication by alpha^n in the table's terms
(proof device for the algebraic lemmas, not part of the source). -/
def powStep : Nat → Nat → Nat
  | 0, x => x
  | n+1, x => powStep n (gfStep x)

/-- Iterated gfMul by a fixed point (proof device): powx x n = x^n under
the table multiplication, multiplying on the right as Horner does. -/
def powx (x : Nat) : Nat → Nat
  | 0 => 1
  | n+1 => gfMul (powx x n) x

-- ===========================================================================
-- Shared error type: one constructor per distinct JS throw site reached by
-- the claims (fec, compress, codebook, packet modules)
-- ===========================================================================

inductive Err where
  | tooLarge
  | tooShort
  | tooManyErrors
  | locatorMismatch
  | derivativeZero
  | verificationFailed
  | truncatedMarker
  | truncatedData
  | reservedByte
  | invalidIndex
  | headerTooSmall
  | packetTooSmall
  | unsupportedVersion
  | unknownCompression
  | unknownFec
  | missingTemplate
  | capacityError
  | unknownTemplate
  | missingParams
  | truncatedParams
  | invalidWeatherCode
  | shortTextTooLong
  | emptyCodebook
  | unknownTemplateId
  | unknownWeatherType
  | paramOutOfRange
deriving DecidableEq, Repr

/-- Decidable equality for Except results (used to state and decide
concrete encode/decode outcomes). -/
instance exceptDecEq {e a : Type} [DecidableEq e] [DecidableEq a] :
    DecidableEq (Except e a) := fun x y =>
  match x, y with
  | .ok u, .ok v =>
    if h : u = v then isTrue (by rw [h])
    else isFalse (by intro hc; cases hc; exact h rfl)
  | .error u, .error v =>
    if h : u = v then isTrue (by rw [h])
    else isFalse (by intro hc; cases hc; exact h rfl)
  | .ok _, .error _ => isFalse (by intro hc; cases hc)
  | .error _, .ok _ => isFalse (by intro hc; cases hc)

-- ===========================================================================
-- Polynomial operations over GF(2^8)  (src/index.js fec section: polyMul,
-- polyEval, polyScale).  Polynomials are coefficient lists, highest degree
-- first.
-- ===========================================================================

/-- `polyMul(p, q)`: `r[i + j] ^= gfMul(p[i], q[j])` over an array of length
p.length + q.length - 1; entry k is the XOR of the products p[i]*q[k-i]
(out-of-range reads contribute gfMul with 0, i.e. nothing). -/
def polyMul (p q : List Nat) : List Nat :=
  (List.range (p.length + q.length - 1)).map (fun k =>
    (List.range (k + 1)).foldl
      (fun acc i => acc ^^^ gfMul (p.getD i 0) (q.getD (k - i) 0)) 0)

/-- `polyEval(poly, x)`: Horner evaluation, `result = poly[0]` then
`result = gfMul(result, x) ^ poly[i]`.  (JS reads poly[0] of an empty array
as undefined; the decoder never evaluates an empty polynomial, modelled 0.) -/
def polyEval (poly : List Nat) (x : Nat) : Nat :=
  match poly with
  | [] => 0
  | h :: t => t.foldl (fun result c => gfMul result x ^^^ c) h

/-- `polyScale(poly, x)`: every coefficient multiplied by x. -/
def polyScale (poly : List Nat) (x : Nat) : List Nat :=
  poly.map (fun c => gfMul c x)

-- ===========================================================================
-- Reed-Solomon codec  (src/index.js fec section)
-- ===========================================================================

/-- `buildGenerator(nsym)`: g = prod_i (x + alpha^i), built by repeated
polyMul with [1, gfExp i].  (`getGenerator` only caches this value; the
cache is semantically transparent and modelled by direct calls.) -/
def buildGenerator (nsym : Nat) : List Nat :=
  (List.range nsym).foldl (fun g i => polyMul g [1, gfExp i]) [1]

/-- FEC correction levels; the JS LEVELS map plus getParityCount, which
rejects any other string, make this a closed three-value enum. -/
inductive FecLevel where
  | low
  | medium
  | high
deriving DecidableEq, Repr

/-- `LEVELS`: parity symbol count per level. -/
def LEVELS : FecLevel → Nat
  | .low => 16
  | .medium => 32
  | .high => 64

/-- XOR the vector p into fb starting at position k (the inner loop
`feedback[i + j] ^= ...`, j = 1..nsym, with k = i + 1); positions past
p are untouched (XOR with the zero padding). -/
def xorRange (fb : List Nat) (k : Nat) (p : List Nat) : List Nat :=
  fb.take k ++
    ((fb.drop k).zipWith (· ^^^ ·)
      (p ++ List.replicate ((fb.drop k).length - p.length) 0))

/-- One iteration of the rsEncodeMsg loop at index i. -/
def encodeStep (gen : List Nat) (fb : List Nat) (i : Nat) : List Nat :=
  let coef := fb.getD i 0
  if coef ≠ 0 then xorRange fb (i + 1) (polyScale (gen.drop 1) coef) else fb

/-- The rsEncodeMsg loop, i counting up, n iterations left. -/
def encodeLoop (gen : List Nat) (fb : List Nat) (i n : Nat) : List Nat :=
  match n with
  | 0 => fb
  | n'+1 => encodeLoop gen (encodeStep gen fb i) (i + 1) n'

/-- `rsEncodeMsg(msgIn, nsym)`: LFSR-style remainder computation; returns
the nsym parity symbols (`feedback.slice(msgIn.length)`). -/
def rsEncodeMsg (msgIn : List Nat) (nsym : Nat) : List Nat :=
  let gen := buildGenerator nsym
  let feedback := msgIn ++ List.replicate nsym 0
  (encodeLoop gen feedback 0 msgIn.length).drop msgIn.length

/-- `rsCalcSyndromes(msg, nsym)`: synd[i] = msg evaluated at alpha^i. -/
def rsCalcSyndromes (msg : List Nat) (nsym : Nat) : List Nat :=
  (List.range nsym).map (fun i => polyEval msg (gfExp i))

/-- The delta accumulation of one Berlekamp-Massey iteration:
`delta = synd[i]` then `delta ^= gfMul(errLoc[len-1-j], synd[i-j])` for
j = 1..len-1.  When j > i the JS reads synd[negative] = undefined and the
`^=` coerces the contribution to 0; modelled by the j ≤ i guard. -/
def bmDelta (synd errLoc : List Nat) (i : Nat) : Nat :=
  ((List.range errLoc.length).drop 1).foldl
    (fun delta j =>
      delta ^^^
        (if j ≤ i then
          gfMul (errLoc.getD (errLoc.length - 1 - j) 0) (synd.getD (i - j) 0)
        else 0))
    (synd.getD i 0)

/-- XOR of two coefficient arrays aligned at their low-order (right) end:
`updated.set(errLoc, updated.length - errLoc.length)` then
`updated[updated.length - scaledOld.length + j] ^= scaledOld[j]`. -/
def endAlignXor (p q : List Nat) : List Nat :=
  let m := max p.length q.length
  (List.replicate (m - p.length) 0 ++ p).zipWith (· ^^^ ·)
    (List.replicate (m - q.length) 0 ++ q)

/-- One Berlekamp-Massey iteration on the state (errLoc, oldLoc). -/
def bmStep (synd : List Nat) (st : List Nat × List Nat) (i : Nat) :
    List Nat × List Nat :=
  let delta := bmDelta synd st.1 i
  let oldLoc := st.2 ++ [0]
  if delta ≠ 0 then
    let p :=
      if oldLoc.length > st.1.length then
        (polyScale oldLoc delta, polyScale st.1 (gfInverse delta))
      else (st.1, oldLoc)
    (endAlignXor p.1 (polyScale p.2 delta), p.2)
  else (st.1, oldLoc)

/-- The Berlekamp-Massey loop over i = 0..nsym-1. -/
def bmLoop (synd : List Nat) (st : List Nat × List Nat) (i n : Nat) :
    List Nat × List Nat :=
  match n with
  | 0 => st
  | n'+1 => bmLoop synd (bmStep synd st i) (i + 1) n'

/-- `rsFindErrorLocator(synd, nsym)`: Berlekamp-Massey; fails
'Too many errors to correct' when 2*(errLoc.length - 1) > nsym. -/
def rsFindErrorLocator (synd : List Nat) (nsym : Nat) : Except Err (List Nat) :=
  let errLoc := (bmLoop synd ([1], [1]) 0 nsym).1
  if (errLoc.length - 1) * 2 > nsym then .error .tooManyErrors
  else .ok errLoc

/-- `rsFindErrors(errLoc, msgLen)`: Chien search; error positions are the i
with errLoc(alpha^(255-i)) = 0, recorded as msgLen-1-i; fails
'Could not locate all errors' if the count differs from errLoc.length-1. -/
def rsFindErrors (errLoc : List Nat) (msgLen : Nat) : Except Err (List Nat) :=
  let numErrors := errLoc.length - 1
  let errPos := (List.range msgLen).filterMap
    (fun i =>
      if polyEval errLoc (gfExp (255 - i)) = 0 then some (msgLen - 1 - i)
      else none)
  if errPos.length ≠ numErrors then .error .locatorMismatch
  else .ok errPos

/-- `rsCorrectErrors(msg, synd, errPos)`: Forney's algorithm.  The error
locator is rebuilt from positions, the evaluator is
(syndrome polynomial * errLoc) mod x^nsym, errLocPrime is the formal
derivative (even-index coefficients), and each listed position is XORed
with the computed magnitude.  Fails 'Error locator derivative is zero'
when Lambda-prime evaluates to 0. -/
def rsCorrectErrors (msg synd errPos : List Nat) : Except Err (List Nat) :=
  let nsym := synd.length
  let errLoc := errPos.foldl
    (fun acc pos => polyMul acc [gfExp (msg.length - 1 - pos), 1]) [1]
  let syndPoly := 0 :: synd.reverse
  let errEval0 := polyMul syndPoly errLoc
  let errEval := errEval0.drop (errEval0.length - nsym)
  let errLocPrime := (List.range ((errLoc.length + 1) / 2)).map
    (fun k => errLoc.getD (2 * k) 0)
  errPos.foldlM
    (fun corrected pos =>
      let xi := gfExp (msg.length - 1 - pos)
      let xiInv := gfInverse xi
      let errLocEval := polyEval errLocPrime xiInv
      if errLocEval = 0 then .error .derivativeZero
      else
        let magnitude := gfDiv (polyEval errEval xiInv) errLocEval
        .ok (corrected.set pos (corrected.getD pos 0 ^^^ magnitude)))
    msg

/-- `rsDecodeMsg(msgWithParity, nsym)`: syndromes; clean path strips parity;
dirty path locates, corrects, recomputes syndromes and fails
'Correction failed: residual syndromes non-zero' unless all are zero.
Each helper's throw propagates (modelled by the error matches). -/
def rsDecodeMsg (msgWithParity : List Nat) (nsym : Nat) : Except Err (List Nat) :=
  let synd := rsCalcSyndromes msgWithParity nsym
  let hasErrors := (List.range nsym).any (fun i => synd.getD i 0 ≠ 0)
  if ¬hasErrors then
    .ok (msgWithParity.take (msgWithParity.length - nsym))
  else
    match rsFindErrorLocator synd nsym with
    | .error e => .error e
    | .ok errLoc =>
      match rsFindErrors errLoc msgWithParity.length with
      | .error e => .error e
      | .ok errPos =>
        match rsCorrectErrors msgWithParity synd errPos with
        | .error e => .error e
        | .ok corrected =>
          let checkSynd := rsCalcSyndromes corrected nsym
          if (List.range nsym).any (fun i => checkSynd.getD i 0 ≠ 0) then
            .error .verificationFailed
          else
            .ok (corrected.take (corrected.length - nsym))

/-- Public `fec.encode(data, level)`. -/
def fecEncode (data : List Nat) (level : FecLevel) : Except Err (List Nat) :=
  let nsym := LEVELS level
  if data.length + nsym > 255 then .error .tooLarge
  else .ok (data ++ rsEncodeMsg data nsym)

/-- Public `fec.decode(data, level)`. -/
def fecDecode (data : List Nat) (level : FecLevel) : Except Err (List Nat) :=
  let nsym := LEVELS level
  if data.length < nsym then .error .tooShort
  else rsDecodeMsg data nsym

/-- `fec.parityBytes(level)`. -/
def parityBytes (level : FecLevel) : Nat := LEVELS level

/-- `fec.maxCorrectableErrors(level)` = floor(parity / 2). -/
def maxCorrectableErrors (level : FecLevel) : Nat := LEVELS level / 2

-- ===========================================================================
-- Packet header  (src/packet.js: encodeHeader, decodeHeader)
-- ===========================================================================

structure Header where
  version : Nat
  compType : Nat
  fecLevel : Nat
  flags : Nat
deriving DecidableEq, Repr

def PACKET_VERSION : Nat := 1
def MAX_PACKET_SIZE : Nat := 237
def HEADER_SIZE : Nat := 2

/-- `encodeHeader(version, compType, fecLevel, flags)`. -/
def encodeHeader (version compType fecLevel flags : Nat) : List Nat :=
  [((version &&& 0xF) <<< 4) ||| (compType &&& 0xF),
   ((fecLevel &&& 0xF) <<< 4) ||| (flags &&& 0xF)]

/-- `decodeHeader(buf)`: fails 'Buffer too small' below HEADER_SIZE. -/
def decodeHeader (buf : List Nat) : Except Err Header :=
  if buf.length < HEADER_SIZE then .error .headerTooSmall
  else
    let byte0 := buf.getD 0 0
    let byte1 := buf.getD 1 0
    .ok ⟨(byte0 >>> 4) &&& 0xF, byte0 &&& 0xF, (byte1 >>> 4) &&& 0xF, byte1 &&& 0xF⟩

-- ===========================================================================
-- Smaz-style compression  (src/compress.js)
-- ===========================================================================

def CODEBOOK : List String := [
  " ", "e", "t", "a", "o", "i", "n", "s",
  "r", "h", "l", "d", "the", " the", "th", "he",
  "in", "er", "an", "on", " a", "re", "nd", "en",
  "at", "ed", "or", "es", "is", "it", "ou", "to",
  "ing", " to", " is", " in", " it", " an", " on", "tion",
  "er ", "ed ", "es ", " of", "of ", "and", " and", "for",
  " for", "you", " you", "tha", "that", " tha", "hat", "all",
  "are", " are", "not", " not", "have", " hav", "with", " wit",
  "was", " was", "can", " can", "but", " but", "ght", "igh",
  "ing ", "ent", "ion", "her", " her", "his", " his", "ould",
  "ome", "out", " out", "thi", "this", " thi", "ver", "ever",
  "ust", "just", " jus", "abo", "abou", "get", " get", "whe",
  "when", " whe", " wh", "ome ", "here", " her", "ther", "from",
  " fro", "ght ", "rig", "righ", "ow", "now", " now", "how",
  " how", "kno", "know", " kno", "will", " wil", "ould ", "hey",
  "they", " the ", "like", " lik", "goin", "going", " goi", "com",
  "come", " com", "look", " loo", "wha", "what", " wha", "back",
  " bac", "been", " bee", "good", " goo", "need", " nee", "help",
  " hel", "way", " way", "ple", "leas", "ease", "than", "hank",
  "ank", "here ", "wor", "work", " wor", "yeah", " yea", "sor",
  "sorry", " sor", "ple", "pleas", "lease", "okay", " oka", "may",
  "maybe", " may", "sure", " sur", "min", "minu", "minut", "think",
  " thin", " th", "don", "don\x27", "don\x27t", " do", "ight", "night",
  " nig", "cal", "call", " cal", "morn", "morni", " mor", "see",
  " see", "day", " day", "today", " tod", "tomor", " tom", "free",
  " fre", "din", "dinn", "dinne", " din", "lunch", " lun", "meet",
  " mee", "time", " tim", "loc", "locat", " loc", "head", " hea",
  "wait", " wai", "safe", " saf", "leav", "leave", " lea", "around",
  " aro", "stay", " sta", "emer", "emerg", " eme", "copy", " cop",
  "rog", "roger", " rog", "over", " ove", "ack", " ack", "\x27s",
  "n\x27t", "\x27m", "\x27re", "\x27ll", "\x27ve", "ly ", "ment", "ness",
  "able", "ful", "tion ", ". ", ", ", "? "]

/-- `LITERAL_MARKER = 0xFE`; byte 0xFF is reserved. -/
def LITERAL_MARKER : Nat := 0xFE

/-- `MAX_ENTRY_LEN = Math.max(...CODEBOOK.map(s => s.length))`. -/
def MAX_ENTRY_LEN : Nat := (CODEBOOK.map (fun s => s.length)).foldr max 0

/-- TrieNode: `index` is the codebook index (JS -1 when absent, modelled as
Option), `children` a char-keyed map in insertion order. -/
inductive Trie where
  | node (index : Option Nat) (children : List (Char × Trie))

def Trie.index : Trie → Option Nat
  | .node i _ => i

def Trie.children : Trie → List (Char × Trie)
  | .node _ c => c

def emptyTrie : Trie := .node none []

/-- Child lookup (`node.children[ch]`). -/
def findChild : List (Char × Trie) → Char → Option Trie
  | [], _ => none
  | (key, n) :: rest, c => if key = c then some n else findChild rest c

/-- Child update: replace in place, or append as a fresh key (JS object
insertion order). -/
def setChild : List (Char × Trie) → Char → Trie → List (Char × Trie)
  | [], c, n => [(c, n)]
  | (key, m) :: rest, c, n =>
    if key = c then (key, n) :: rest else (key, m) :: setChild rest c n

/-- Insert one codebook string: walk/create child nodes per char, then set
the terminal's index to i (overwriting any earlier value, as the JS
`node.index = i` does on duplicate entries). -/
def trieInsert : Trie → List Char → Nat → Trie
  | t, [], i => .node (some i) t.children
  | t, c :: cs, i =>
    let child :=
      match findChild t.children c with
      | some n => n
      | none => emptyTrie
    .node t.index (setChild t.children c (trieInsert child cs i))

/-- `buildTrie(codebook)`: insert entries in index order. -/
def buildTrie (codebook : List String) : Trie :=
  codebook.enum.foldl (fun t p => trieInsert t p.2.toList p.1) (.node none [])

/-- The module-level `trie = buildTrie(CODEBOOK)`. -/
def trie : Trie := buildTrie CODEBOOK

/-- The matching loop of compress at one position: walk the trie along the
text while fuel (MAX_ENTRY_LEN minus steps taken) and text remain,
recording (bestIndex, bestLen) at every terminal node passed.  The JS
guard `bestLen >= 2 || (bestLen === 1 && bestIndex >= 0)` is equivalent to
having found any terminal (bestIndex is set exactly when bestLen ≥ 1),
i.e. to this function returning some. -/
def findBest (node : Trie) (t : List Char) (fuel len : Nat)
    (best : Option (Nat × Nat)) : Option (Nat × Nat) :=
  match fuel, t with
  | 0, _ => best
  | _ + 1, [] => best
  | fuel' + 1, c :: cs =>
    match findChild node.children c with
    | none => best
    | some child =>
      let best' :=
        match child.index with
        | some i => some (i, len + 1)
        | none => best
      findBest child cs fuel' (len + 1) best'

/-- UTF-8 encoding of one scalar (Buffer.from(ch, 'utf8') for a BMP char;
JS strings are UTF-16, so astral-plane text — surrogate pairs — falls
outside this Char-based model). -/
def utf8EncodeChar (c : Char) : List Nat :=
  let n := c.toNat
  if n < 0x80 then [n]
  else if n < 0x800 then [0xC0 ||| (n >>> 6), 0x80 ||| (n &&& 0x3F)]
  else if n < 0x10000 then
    [0xE0 ||| (n >>> 12), 0x80 ||| ((n >>> 6) &&& 0x3F), 0x80 ||| (n &&& 0x3F)]
  else
    [0xF0 ||| (n >>> 18), 0x80 ||| ((n >>> 12) &&& 0x3F),
     0x80 ||| ((n >>> 6) &&& 0x3F), 0x80 ||| (n &&& 0x3F)]

/-- The literal bytes pushed for one unmatched char: `charCodeAt` if it is
a byte value, else the char's UTF-8 bytes. -/
def litBytes (c : Char) : List Nat :=
  if c.toNat > 255 then utf8EncodeChar c else [c.toNat]

/-- `flushLiterals()`: emit 0xFE <len> <bytes> chunks of at most 255 bytes
until the buffer is empty.  Fuel bounds the loop; callers pass at least
the buffer length, which the 255-byte chunks can never exhaust. -/
def flushLiterals : Nat → List Nat → List Nat
  | 0, _ => []
  | fuel + 1, lit =>
    if lit = [] then []
    else
      let chunk := lit.take 255
      (LITERAL_MARKER :: chunk.length :: chunk) ++ flushLiterals fuel (lit.drop 255)

/-- The main compress loop: at each position take the longest trie match
(emitting pending literals first), else push the char's bytes onto the
literal buffer.  Fuel = remaining text length (each step consumes ≥ 1
char). -/
def compressGo : Nat → List Nat → List Char → List Nat
  | _, lit, [] => flushLiterals (lit.length + 1) lit
  | 0, lit, _ => flushLiterals (lit.length + 1) lit
  | fuel + 1, lit, c :: cs =>
    match findBest trie (c :: cs) MAX_ENTRY_LEN 0 none with
    | some (i, l) =>
      flushLiterals (lit.length + 1) lit ++ [i] ++ compressGo fuel [] ((c :: cs).drop l)
    | none => compressGo fuel (lit ++ litBytes c) cs

/-- `compress(text)`. -/
def compress (text : String) : List Nat :=
  compressGo text.toList.length [] text.toList

/-- The WHATWG/Node replacement decoder for UTF-8 (Buffer.toString('utf8')):
invalid or truncated sequences decode to U+FFFD, restarting at the
offending byte.  Fuel = byte count (each step consumes ≥ 1 byte). -/
def utf8Decode : Nat → List Nat → List Char
  | 0, _ => []
  | _ + 1, [] => []
  | fuel + 1, b :: rest =>
    if b < 0x80 then Char.ofNat b :: utf8Decode fuel rest
    else if 0xC2 ≤ b ∧ b ≤ 0xDF then
      match rest with
      | [] => [Char.ofNat 0xFFFD]
      | c1 :: rest1 =>
        if 0x80 ≤ c1 ∧ c1 ≤ 0xBF then
          Char.ofNat (((b - 0xC0) <<< 6) ||| (c1 - 0x80)) :: utf8Decode fuel rest1
        else Char.ofNat 0xFFFD :: utf8Decode fuel rest
    else if 0xE0 ≤ b ∧ b ≤ 0xEF then
      let lo := if b = 0xE0 then 0xA0 else 0x80
      let hi := if b = 0xED then 0x9F else 0xBF
      match rest with
      | [] => [Char.ofNat 0xFFFD]
      | c1 :: rest1 =>
        if lo ≤ c1 ∧ c1 ≤ hi then
          match rest1 with
          | [] => [Char.ofNat 0xFFFD]
          | c2 :: rest2 =>
            if 0x80 ≤ c2 ∧ c2 ≤ 0xBF then
              Char.ofNat (((b - 0xE0) <<< 12) ||| ((c1 - 0x80) <<< 6) ||| (c2 - 0x80))
                :: utf8Decode fuel rest2
            else Char.ofNat 0xFFFD :: utf8Decode fuel rest1
        else Char.ofNat 0xFFFD :: utf8Decode fuel rest
    else if 0xF0 ≤ b ∧ b ≤ 0xF4 then
      let lo := if b = 0xF0 then 0x90 else 0x80
      let hi := if b = 0xF4 then 0x8F else 0xBF
      match rest with
      | [] => [Char.ofNat 0xFFFD]
      | c1 :: rest1 =>
        if lo ≤ c1 ∧ c1 ≤ hi then
          match rest1 with
          | [] => [Char.ofNat 0xFFFD]
          | c2 :: rest2 =>
            if 0x80 ≤ c2 ∧ c2 ≤ 0xBF then
              match rest2 with
              | [] => [Char.ofNat 0xFFFD]
              | c3 :: rest3 =>
                if 0x80 ≤ c3 ∧ c3 ≤ 0xBF then
                  Char.ofNat (((b - 0xF0) <<< 18) ||| ((c1 - 0x80) <<< 12) |||
                      ((c2 - 0x80) <<< 6) ||| (c3 - 0x80))
                    :: utf8Decode fuel rest3
                else Char.ofNat 0xFFFD :: utf8Decode fuel rest2
            else Char.ofNat 0xFFFD :: utf8Decode fuel rest1
        else Char.ofNat 0xFFFD :: utf8Decode fuel rest
    else Char.ofNat 0xFFFD :: utf8Decode fuel rest

/-- The decompress loop: literal marker and length prefix copy raw bytes
through the UTF-8 decoder; 0xFF is reserved; any other byte must index the
dictionary.  Fuel = buffer length (each step consumes ≥ 1 byte).  The
one-byte and longer-buffer cases spell out the same non-literal branches so
that every match in the model is on top-level constructors. -/
def decompressGo : Nat → List Nat → Except Err (List Char)
  | _, [] => .ok []
  | 0, _ => .ok []
  | fuel + 1, [b] =>
    if b = LITERAL_MARKER then .error .truncatedMarker
    else if b = 0xFF then .error .reservedByte
    else if b ≥ CODEBOOK.length then .error .invalidIndex
    else
      match decompressGo fuel [] with
      | .error e => .error e
      | .ok tail => .ok ((CODEBOOK.getD b "").toList ++ tail)
  | fuel + 1, b :: len :: rest2 =>
    if b = LITERAL_MARKER then
      if rest2.length < len then .error .truncatedData
      else
        match decompressGo fuel (rest2.drop len) with
        | .error e => .error e
        | .ok tail => .ok (utf8Decode (len + 1) (rest2.take len) ++ tail)
    else if b = 0xFF then .error .reservedByte
    else if b ≥ CODEBOOK.length then .error .invalidIndex
    else
      match decompressGo fuel (len :: rest2) with
      | .error e => .error e
      | .ok tail => .ok ((CODEBOOK.getD b "").toList ++ tail)

/-- `decompress(buf)`. -/
def decompress (buf : List Nat) : Except Err (List Char) :=
  decompressGo buf.length buf

/-- Walk a trie along a char path. -/
def findPath : Trie → List Char → Option Trie
  | t, [] => some t
  | t, c :: cs =>
    match findChild t.children c with
    | none => none
    | some n => findPath n cs

/-- Does the index stored at path p point at the codebook entry equal to p,
and is it the last (highest) such index?  (The JS buildTrie writes
`node.index = i` for i ascending, so the stored index of a duplicated
entry is the highest.) -/
def idxOk (idx : Option Nat) (p : List Char) : Bool :=
  match idx with
  | none => true
  | some i =>
    ((CODEBOOK.getD i "").toList == p) &&
      (List.range CODEBOOK.length).all
        (fun j => decide (j ≤ i) || !((CODEBOOK.getD j "").toList == p))

/-- Bounded-depth checker that every terminal node of a trie carries the
last codebook index of its own path. -/
def trieOkF : Nat → List Char → Trie → Bool
  | 0, _, _ => false
  | fuel + 1, p, t =>
    idxOk t.index p &&
      t.children.all (fun cn => trieOkF fuel (p ++ [cn.1]) cn.2)

/-- The specification a matched index satisfies: it denotes a codebook
entry equal to the matched string, and no later entry equals it. -/
def entrySpec (i : Nat) (s : List Char) : Prop :=
  (CODEBOOK.getD i "").toList = s ∧
    ∀ j, j < CODEBOOK.length → (CODEBOOK.getD j "").toList = s → j ≤ i

-- ===========================================================================
-- Codebook templates  (src/codebook.js)
-- ===========================================================================

/-- The 64 simple templates (`defineSimple(id, name, text)`), ids 0x00–0x3F:
(id, name, text) in registration order. -/
def SIMPLE_TEMPLATES : List (Nat × String × String) := [
  (0x00, "ok", "I\x27m OK"),
  (0x01, "need_help", "Need help"),
  (0x02, "emergency", "Emergency!"),
  (0x03, "yes", "Yes"),
  (0x04, "no", "No"),
  (0x05, "maybe", "Maybe"),
  (0x06, "on_my_way", "On my way"),
  (0x07, "call_me", "Call me"),
  (0x08, "copy", "Copy"),
  (0x09, "roger", "Roger"),
  (0x0A, "thanks", "Thanks"),
  (0x0B, "please", "Please"),
  (0x0C, "sorry", "Sorry"),
  (0x0D, "hello", "Hello"),
  (0x0E, "goodbye", "Goodbye"),
  (0x0F, "good_morning", "Good morning"),
  (0x10, "good_night", "Good night"),
  (0x11, "safe", "I\x27m safe"),
  (0x12, "help_coming", "Help is coming"),
  (0x13, "stay_put", "Stay put"),
  (0x14, "move_out", "Move out"),
  (0x15, "all_clear", "All clear"),
  (0x16, "danger", "Danger"),
  (0x17, "stop", "Stop"),
  (0x18, "go", "Go"),
  (0x19, "wait", "Wait"),
  (0x1A, "affirmative", "Affirmative"),
  (0x1B, "negative", "Negative"),
  (0x1C, "check_in", "Checking in"),
  (0x1D, "heading_home", "Heading home"),
  (0x1E, "arrived", "Arrived"),
  (0x1F, "leaving_now", "Leaving now"),
  (0x20, "be_right_back", "Be right back"),
  (0x21, "brb", "BRB"),
  (0x22, "sos", "SOS"),
  (0x23, "mayday", "Mayday"),
  (0x24, "send_help", "Send help"),
  (0x25, "lost", "I\x27m lost"),
  (0x26, "found_it", "Found it"),
  (0x27, "send_coords", "Send coordinates"),
  (0x28, "low_battery", "Low battery"),
  (0x29, "charging", "Charging"),
  (0x2A, "no_signal", "No signal"),
  (0x2B, "weak_signal", "Weak signal"),
  (0x2C, "strong_signal", "Strong signal"),
  (0x2D, "rain", "Rain"),
  (0x2E, "clear_sky", "Clear sky"),
  (0x2F, "overcast", "Overcast"),
  (0x30, "windy", "Windy"),
  (0x31, "fog", "Fog"),
  (0x32, "snow", "Snow"),
  (0x33, "storm", "Storm"),
  (0x34, "understood", "Understood"),
  (0x35, "repeat", "Say again"),
  (0x36, "over_out", "Over and out"),
  (0x37, "standing_by", "Standing by"),
  (0x38, "busy", "Busy"),
  (0x39, "free", "Free"),
  (0x3A, "meet_up", "Meet up?"),
  (0x3B, "come_here", "Come here"),
  (0x3C, "run", "Run!"),
  (0x3D, "hide", "Hide"),
  (0x3E, "quiet", "Be quiet"),
  (0x3F, "listen", "Listen")]

/-- The 10 parameterised templates (`defineParam`), ids 0x40–0x49:
(id, name). -/
def PARAM_TEMPLATES : List (Nat × String) := [
  (0x40, "location"), (0x41, "eta"), (0x42, "weather"),
  (0x43, "switch_channel"), (0x44, "heading"), (0x45, "altitude"),
  (0x46, "speed"), (0x47, "battery"), (0x48, "headcount"),
  (0x49, "short_text")]

/-- `WEATHER_CODES`. -/
def WEATHER_CODES : List String := [
  "clear", "cloudy", "rain", "heavy rain", "drizzle", "snow",
  "sleet", "hail", "fog", "mist", "wind", "storm", "thunder",
  "tornado", "hurricane", "hot", "cold", "freezing", "mild", "warm"]

/-- Typed parameter records for the parameterised templates.  Latitude and
longitude carry the 32-bit IEEE-754 bit patterns that `writeFloatBE` /
`readFloatBE` move (the codec itself only copies those four bytes each
way); numeric params the JS feeds through `Math.round` are already
integers here. -/
inductive CBParams where
  | location (latBits lonBits : Nat)
  | eta (minutes : Nat)
  | weather (type : String)
  | channel (channel : Nat)
  | heading (bearing : Nat)
  | altitude (metres : Int)
  | speed (kmh : Nat)
  | battery (percent : Nat)
  | headcount (count : Nat)
  | shortText (text : String)
deriving DecidableEq, Repr

/-- `Buffer.from(s, 'utf8')`: the UTF-8 bytes of a string. -/
def utf8Bytes (s : String) : List Nat :=
  s.toList.foldr (fun c acc => utf8EncodeChar c ++ acc) []

/-- Text of the `location` template.  The JS `format` prints the two
floats with `toFixed(6)`; decimal formatting of IEEE-754 floats is outside
this byte-level model, so the text here carries the raw 32-bit patterns.
No claim references the location text. -/
def locationText (latBits lonBits : Nat) : String :=
  "At location [" ++ toString latBits ++ ", " ++ toString lonBits ++ "]"

/-- The per-template `encodeParams` bodies, dispatched by template id.  A
params record of the wrong shape for the template is rejected here; the JS
counterpart would instead read absent object fields as `undefined` and
serialise NaN/zero garbage, a case no caller of this model exercises.
`writeInt16BE` rejects values outside the signed 16-bit range. -/
def encodeParams (id : Nat) (p : CBParams) : Except Err (List Nat) :=
  match id, p with
  | 0x40, .location latBits lonBits =>
    .ok [(latBits >>> 24) &&& 0xFF, (latBits >>> 16) &&& 0xFF,
         (latBits >>> 8) &&& 0xFF, latBits &&& 0xFF,
         (lonBits >>> 24) &&& 0xFF, (lonBits >>> 16) &&& 0xFF,
         (lonBits >>> 8) &&& 0xFF, lonBits &&& 0xFF]
  | 0x41, .eta minutes => .ok [min 255 minutes]
  | 0x42, .weather ty =>
    let idx := WEATHER_CODES.findIdx (fun w => w == ty)
    if idx < WEATHER_CODES.length then .ok [idx] else .error .unknownWeatherType
  | 0x43, .channel ch => .ok [ch &&& 0xFF]
  | 0x44, .heading bearing =>
    .ok [((bearing &&& 0x1FF) >>> 8) &&& 0xFF, (bearing &&& 0x1FF) &&& 0xFF]
  | 0x45, .altitude metres =>
    if metres < -32768 ∨ 32767 < metres then .error .paramOutOfRange
    else .ok [(metres % 65536).toNat >>> 8, (metres % 65536).toNat &&& 0xFF]
  | 0x46, .speed kmh => .ok [min 255 kmh]
  | 0x47, .battery percent => .ok [min 100 percent]
  | 0x48, .headcount count => .ok [min 255 count]
  | 0x49, .shortText text =>
    if (utf8Bytes text).length > 32 then .error .shortTextTooLong
    else .ok ((utf8Bytes text).length :: utf8Bytes text)
  | _, _ => .error .missingParams

/-- `codebook.encode(templateName, params)`: BY_NAME lookup (names are
unique, so searching the simple then the parameterised list is the same
map lookup), simple templates are their id byte, parameterised ones id
followed by the encoded params. -/
def codebookEncode (templateName : String) (params : Option CBParams) :
    Except Err (List Nat) :=
  match SIMPLE_TEMPLATES.find? (fun e => e.2.1 == templateName) with
  | some s => .ok [s.1]
  | none =>
    match PARAM_TEMPLATES.find? (fun e => e.2 == templateName) with
    | none => .error .unknownTemplate
    | some pe =>
      match params with
      | none => .error .missingParams
      | some p =>
        match encodeParams pe.1 p with
        | .error e => .error e
        | .ok pb => .ok (pe.1 :: pb)

/-- The per-template `decodeParams` plus `format` bodies, dispatched by
template id; `rest` is the buffer after the id byte (JS offset 1), so the
JS bound checks `1 + k > buf.length` become `rest.length < k`.  Both
`Truncated … params` and `Truncated short_text data` map to
`truncatedParams`. -/
def decodeParams (id : Nat) (rest : List Nat) : Except Err (CBParams × String) :=
  if id = 0x40 then
    if rest.length < 8 then .error .truncatedParams
    else
      .ok (.location
            (((rest.getD 0 0) <<< 24) ||| ((rest.getD 1 0) <<< 16) |||
              ((rest.getD 2 0) <<< 8) ||| rest.getD 3 0)
            (((rest.getD 4 0) <<< 24) ||| ((rest.getD 5 0) <<< 16) |||
              ((rest.getD 6 0) <<< 8) ||| rest.getD 7 0),
          locationText
            (((rest.getD 0 0) <<< 24) ||| ((rest.getD 1 0) <<< 16) |||
              ((rest.getD 2 0) <<< 8) ||| rest.getD 3 0)
            (((rest.getD 4 0) <<< 24) ||| ((rest.getD 5 0) <<< 16) |||
              ((rest.getD 6 0) <<< 8) ||| rest.getD 7 0))
  else if id = 0x41 then
    if rest.length < 1 then .error .truncatedParams
    else .ok (.eta (rest.getD 0 0), "ETA " ++ toString (rest.getD 0 0) ++ " minutes")
  else if id = 0x42 then
    if rest.length < 1 then .error .truncatedParams
    else if rest.getD 0 0 ≥ WEATHER_CODES.length then .error .invalidWeatherCode
    else .ok (.weather (WEATHER_CODES.getD (rest.getD 0 0) ""),
              "Weather: " ++ WEATHER_CODES.getD (rest.getD 0 0) "")
  else if id = 0x43 then
    if rest.length < 1 then .error .truncatedParams
    else .ok (.channel (rest.getD 0 0),
              "Switch to channel " ++ toString (rest.getD 0 0))
  else if id = 0x44 then
    if rest.length < 2 then .error .truncatedParams
    else .ok (.heading (((rest.getD 0 0 &&& 0x01) <<< 8) ||| rest.getD 1 0),
              "Heading " ++ toString (((rest.getD 0 0 &&& 0x01) <<< 8) ||| rest.getD 1 0) ++ "°")
  else if id = 0x45 then
    if rest.length < 2 then .error .truncatedParams
    else
      .ok (.altitude (if 0x8000 ≤ ((rest.getD 0 0) <<< 8) ||| rest.getD 1 0 then
              (((((rest.getD 0 0) <<< 8) ||| rest.getD 1 0) : Nat) : Int) - 0x10000
            else ((((rest.getD 0 0) <<< 8) ||| rest.getD 1 0 : Nat) : Int)),
          "Altitude " ++ toString (if 0x8000 ≤ ((rest.getD 0 0) <<< 8) ||| rest.getD 1 0 then
              (((((rest.getD 0 0) <<< 8) ||| rest.getD 1 0) : Nat) : Int) - 0x10000
            else ((((rest.getD 0 0) <<< 8) ||| rest.getD 1 0 : Nat) : Int)) ++ "m")
  else if id = 0x46 then
    if rest.length < 1 then .error .truncatedParams
    else .ok (.speed (rest.getD 0 0), "Speed " ++ toString (rest.getD 0 0) ++ " km/h")
  else if id = 0x47 then
    if rest.length < 1 then .error .truncatedParams
    else .ok (.battery (rest.getD 0 0), "Battery " ++ toString (rest.getD 0 0) ++ "%")
  else if id = 0x48 then
    if rest.length < 1 then .error .truncatedParams
    else .ok (.headcount (rest.getD 0 0), toString (rest.getD 0 0) ++ " people")
  else if id = 0x49 then
    if rest.length < 1 then .error .truncatedParams
    else if rest.length < 1 + rest.getD 0 0 then .error .truncatedParams
    else
      .ok (.shortText (String.mk (utf8Decode (rest.getD 0 0 + 1)
              ((rest.drop 1).take (rest.getD 0 0)))),
          String.mk (utf8Decode (rest.getD 0 0 + 1)
              ((rest.drop 1).take (rest.getD 0 0))))
  else .error .unknownTemplateId

/-- The record `codebook.decode` returns (stats-free). -/
structure CBDecoded where
  template : String
  text : String
  params : Option CBParams
deriving DecidableEq, Repr

/-- `codebook.decode(buf)`: empty buffer fails, BY_ID lookup of the first
byte, simple templates return their fixed text, parameterised ones decode
and format their params (trailing extra bytes are ignored, as in the
source). -/
def codebookDecode (buf : List Nat) : Except Err CBDecoded :=
  match buf with
  | [] => .error .emptyCodebook
  | id :: rest =>
    match SIMPLE_TEMPLATES.find? (fun e => e.1 == id) with
    | some s => .ok ⟨s.2.1, s.2.2, none⟩
    | none =>
      match PARAM_TEMPLATES.find? (fun e => e.1 == id) with
      | none => .error .unknownTemplateId
      | some pe =>
        match decodeParams id rest with
        | .error e => .error e
        | .ok pr => .ok ⟨pe.2, pr.2, some pr.1⟩

-- ===========================================================================
-- Packet assembly and parsing  (src/packet.js)
-- ===========================================================================

/-- The three compression option strings. -/
inductive Compression where
  | none
  | smaz
  | codebook
deriving DecidableEq, Repr

/-- The four FEC option strings of the packet layer. -/
inductive FecOpt where
  | none
  | low
  | medium
  | high
deriving DecidableEq, Repr

/-- `COMP_MAP`. -/
def COMP_MAP : Compression → Nat
  | .none => 0x0
  | .smaz => 0x1
  | .codebook => 0x2

/-- `COMP_REVERSE` (undefined outside 0–2). -/
def COMP_REVERSE (code : Nat) : Option Compression :=
  if code = 0x0 then some .none
  else if code = 0x1 then some .smaz
  else if code = 0x2 then some .codebook
  else none

/-- `FEC_MAP`. -/
def FEC_MAP : FecOpt → Nat
  | .none => 0x0
  | .low => 0x1
  | .medium => 0x2
  | .high => 0x3

/-- `FEC_REVERSE` (undefined outside 0–3). -/
def FEC_REVERSE (code : Nat) : Option FecOpt :=
  if code = 0x0 then some .none
  else if code = 0x1 then some .low
  else if code = 0x2 then some .medium
  else if code = 0x3 then some .high
  else none

/-- The `createPacket` options after destructuring with defaults.  The
closed enums model the two string-validity checks; `template = none`
models an absent (undefined) template. -/
structure PacketOptions where
  compression : Compression
  fec : FecOpt
  template : Option String
  params : Option CBParams
  flags : Nat
deriving DecidableEq, Repr

/-- Step 1 of createPacket: produce the payload per compression mode.  The
JS falsiness test `!template` also catches the empty string. -/
def buildPayload (message : String) (opts : PacketOptions) : Except Err (List Nat) :=
  match opts.compression with
  | .smaz => .ok (compress message)
  | .codebook =>
    match opts.template with
    | none => .error .missingTemplate
    | some t =>
      if t = "" then .error .missingTemplate
      else codebookEncode t opts.params
  | .none => .ok (utf8Bytes message)

/-- Step 2 of createPacket: `fec.encode` unless the level is `none`. -/
def applyFec (payload : List Nat) : FecOpt → Except Err (List Nat)
  | .none => .ok payload
  | .low => fecEncode payload FecLevel.low
  | .medium => fecEncode payload FecLevel.medium
  | .high => fecEncode payload FecLevel.high

/-- `createPacket(message, options)`: payload, FEC, header, size check.
Returns the packet bytes; the advisory `stats` record of float ratios is
not modelled.  The assembled packet is written out in both branches in
place of the JS local. -/
def createPacket (message : String) (opts : PacketOptions) : Except Err (List Nat) :=
  match buildPayload message opts with
  | .error e => .error e
  | .ok payload =>
    match applyFec payload opts.fec with
    | .error e => .error e
    | .ok fecData =>
      if (encodeHeader PACKET_VERSION (COMP_MAP opts.compression) (FEC_MAP opts.fec)
          (opts.flags &&& 0xF) ++ fecData).length > MAX_PACKET_SIZE then
        .error .capacityError
      else
        .ok (encodeHeader PACKET_VERSION (COMP_MAP opts.compression) (FEC_MAP opts.fec)
          (opts.flags &&& 0xF) ++ fecData)

/-- Step 3 of parsePacket: `fec.decode` unless the level is `none`. -/
def fecStrip (data : List Nat) : FecOpt → Except Err (List Nat)
  | .none => .ok data
  | .low => fecDecode data FecLevel.low
  | .medium => fecDecode data FecLevel.medium
  | .high => fecDecode data FecLevel.high

/-- Step 4 of parsePacket: recover the message text per compression mode
(`decompress`, `codebook.decode(..).text`, or `data.toString('utf8')`). -/
def decodeBody (compression : Compression) (data : List Nat) : Except Err String :=
  match compression with
  | .smaz =>
    match decompress data with
    | .error e => .error e
    | .ok cs => .ok (String.mk cs)
  | .codebook =>
    match codebookDecode data with
    | .error e => .error e
    | .ok d => .ok d.text
  | .none => .ok (String.mk (utf8Decode data.length data))

/-- The record `parsePacket` returns: the message plus the decoded header
fields (stats omitted). -/
structure ParseResult where
  message : String
  version : Nat
  compression : Compression
  fec : FecOpt
  flags : Nat
deriving DecidableEq, Repr

/-- `parsePacket(packet)`: header decode and validation, FEC strip,
decompress. -/
def parsePacket (packet : List Nat) : Except Err ParseResult :=
  if packet.length < HEADER_SIZE then .error .packetTooSmall
  else
    match decodeHeader packet with
    | .error e => .error e
    | .ok h =>
      if h.version ≠ PACKET_VERSION then .error .unsupportedVersion
      else
        match COMP_REVERSE h.compType with
        | none => .error .unknownCompression
        | some compression =>
          match FEC_REVERSE h.fecLevel with
          | none => .error .unknownFec
          | some fecLevel =>
            match fecStrip (packet.drop HEADER_SIZE) fecLevel with
            | .error e => .error e
            | .ok data =>
              match decodeBody compression data with
              | .error e => .error e
              | .ok message => .ok ⟨message, h.version, compression, fecLevel, h.flags⟩

-- ===== END DEFINITIONS =====

-- ===========================================================================
-- Theorems
-- ===========================================================================

/-- The packed constant equals the table built by the initTables loops. -/
theorem packNat_gfExpArr : packNat gfExpArr = gfExpP := by decide

/-- The packed constant equals the log table built by the initTables loop. -/
theorem packNat_gfLogTable : packNat gfLogTable = gfLogP := by decide

theorem byteAt_lt (n i : Nat) : byteAt n i < 256 := by
  have h := Nat.and_pow_two_sub_one_eq_mod (n >>> (8 * i)) 8
  norm_num at h
  simp only [byteAt]
  omega

theorem packNat_cons (b : Nat) (t : List Nat) :
    packNat (b :: t) = b + (packNat t) * 256 := by
  simp [packNat, Nat.shiftLeft_eq]

theorem byteAt_packNat (l : List Nat) (hb : ∀ b ∈ l, b < 256) :
    ∀ i, byteAt (packNat l) i = l.getD i 0 := by
  induction l with
  | nil =>
    intro i
    simp [packNat, byteAt]
  | cons b t ih =>
    intro i
    have hblt : b < 256 := hb b (by simp)
    have ht : ∀ x ∈ t, x < 256 := fun x hx => hb x (by simp [hx])
    cases i with
    | zero =>
      have h := Nat.and_pow_two_sub_one_eq_mod (packNat (b :: t)) 8
      norm_num at h
      simp only [byteAt, Nat.mul_zero, Nat.shiftRight_zero, List.getD_cons_zero]
      rw [h, packNat_cons]
      omega
    | succ j =>
      have step : byteAt (packNat (b :: t)) (j + 1) = byteAt (packNat t) j := by
        simp only [byteAt, Nat.shiftRight_eq_div_pow, packNat_cons]
        have hp : (2 : Nat) ^ (8 * (j + 1)) = 256 * 2 ^ (8 * j) := by ring
        rw [hp]
        have hdiv : (b + packNat t * 256) / (256 * 2 ^ (8 * j))
            = packNat t / 2 ^ (8 * j) := by
          rw [← Nat.div_div_eq_div_mul]
          have : (b + packNat t * 256) / 256 = packNat t := by
            omega
          rw [this]
        rw [hdiv]
      rw [step, ih ht j]
      simp

theorem mem_set_lt (l : List Nat) (n a : Nat) (h : ∀ b ∈ l, b < 256)
    (ha : a < 256) : ∀ b ∈ l.set n a, b < 256 := by
  intro b hb
  rcases List.mem_or_eq_of_mem_set hb with h' | h'
  · exact h b h'
  · omega

/-- Every step of the table loop keeps the running value an in-range byte. -/
theorem gfStep_lt : ∀ x < 256, gfStep x < 256 := by decide

theorem gfExpAux_lt (n : Nat) : ∀ x, x < 256 → ∀ b ∈ gfExpAux n x, b < 256 := by
  induction n with
  | zero => intro x _ b hb; simp [gfExpAux] at hb
  | succ m ih =>
    intro x hx b hb
    simp only [gfExpAux, List.mem_cons] at hb
    rcases hb with h | h
    · omega
    · exact ih (gfStep x) (gfStep_lt x hx) b h

theorem gfExpTable_lt : ∀ b ∈ gfExpTable, b < 256 :=
  gfExpAux_lt 255 1 (by norm_num)

theorem gfExpArr_lt : ∀ b ∈ gfExpArr, b < 256 := by
  intro b hb
  simp only [gfExpArr, List.mem_append] at hb
  rcases hb with (h | h) | h
  · exact gfExpTable_lt b h
  · exact gfExpTable_lt b h
  · exact gfExpTable_lt b (List.mem_of_mem_take h)

theorem gfLogTable_lt : ∀ b ∈ gfLogTable, b < 256 := by
  have key : ∀ (idxs : List Nat) (init : List Nat),
      (∀ b ∈ init, b < 256) → (∀ i ∈ idxs, i < 256) →
      ∀ b ∈ idxs.foldl (fun acc i => acc.set (gfExpTable.getD i 0) i) init,
        b < 256 := by
    intro idxs
    induction idxs with
    | nil => intro init h _ b hb; exact h b hb
    | cons j rest ih =>
      intro init h hidx b hb
      simp only [List.foldl] at hb
      refine ih (init.set (gfExpTable.getD j 0) j) ?_ ?_ b hb
      · exact mem_set_lt init (gfExpTable.getD j 0) j h (hidx j (by simp))
      · intro k hk; exact hidx k (by simp [hk])
  intro b hb
  refine key (List.range 255) (List.replicate 256 0) ?_ ?_ b hb
  · intro c hc
    have := List.eq_of_mem_replicate hc
    omega
  · intro i hi
    have := List.mem_range.mp hi
    omega

/-- Faithfulness of the packed exp constant: `gfExp i` is exactly element i
of the array built by initTables (with the Uint8Array default 0 beyond the
512 entries, which the code never reads). -/
theorem gfExp_faithful : ∀ i, gfExp i = gfExpArr.getD i 0 := by
  intro i
  simp only [gfExp, ← packNat_gfExpArr]
  exact byteAt_packNat gfExpArr gfExpArr_lt i

/-- Faithfulness of the packed log constant. -/
theorem gfLog_faithful : ∀ v, gfLog v = gfLogTable.getD v 0 := by
  intro v
  simp only [gfLog, ← packNat_gfLogTable]
  exact byteAt_packNat gfLogTable gfLogTable_lt v

-- per-element table facts (fast packed lookups)
theorem expStep : ∀ j < 509, gfStep (gfExp j) = gfExp (j + 1) := by decide
theorem expLog : ∀ v < 256, 1 ≤ v → gfExp (gfLog v) = v ∧ gfLog v < 255 := by decide
theorem logExp : ∀ i < 510, 1 ≤ gfExp i ∧ gfExp i < 256 ∧ gfLog (gfExp i) = i % 255 := by decide
theorem expMod : ∀ i < 512, gfExp i = gfExp (i % 255) := by decide
theorem gfStep_zero : gfStep 0 = 0 := by decide
theorem gfLog_zero : gfLog 0 = 0 := by decide
theorem gfExp_zero : gfExp 0 = 1 := by decide

-- gfStep is xor-linear
theorem shiftLeft_xor (x y : Nat) : (x ^^^ y) <<< 1 = (x <<< 1) ^^^ (y <<< 1) := by
  apply Nat.eq_of_testBit_eq
  intro i
  simp [Nat.testBit_shiftLeft, Nat.testBit_xor]
  cases Decidable.em (1 ≤ i) with
  | inl h => simp [h]
  | inr h => simp [h]

theorem and_bit8 (z : Nat) : z &&& 0x100 = (z.testBit 8).toNat * 256 := by
  have := Nat.and_two_pow z 8
  norm_num at this
  exact this

theorem xor_cancel_pair (a b c : Nat) : (a ^^^ c) ^^^ (b ^^^ c) = a ^^^ b := by
  rw [Nat.xor_assoc]
  have h : c ^^^ (b ^^^ c) = b := by
    rw [Nat.xor_comm b c, ← Nat.xor_assoc, Nat.xor_self, Nat.zero_xor]
  rw [h]

theorem gfStep_eq (x : Nat) :
    gfStep x = (x <<< 1) ^^^ (if (x <<< 1).testBit 8 then 0x11D else 0) := by
  simp only [gfStep, and_bit8]
  rcases h : (x <<< 1).testBit 8 <;> simp [h, PRIM_POLY]

theorem xor_left_comm (a b c : Nat) : a ^^^ (b ^^^ c) = b ^^^ (a ^^^ c) := by
  rw [← Nat.xor_assoc, Nat.xor_comm a b, Nat.xor_assoc]

theorem xor_cancel_left (a b : Nat) : a ^^^ (a ^^^ b) = b := by
  rw [← Nat.xor_assoc, Nat.xor_self, Nat.zero_xor]

theorem gfStep_linear (x y : Nat) : gfStep (x ^^^ y) = gfStep x ^^^ gfStep y := by
  simp only [gfStep_eq, shiftLeft_xor, Nat.testBit_xor]
  rcases hx : (x <<< 1).testBit 8 <;> rcases hy : (y <<< 1).testBit 8 <;>
    simp [Nat.xor_self, Nat.xor_assoc, Nat.xor_comm, xor_left_comm,
      xor_cancel_left, Nat.xor_zero, Nat.zero_xor]

theorem powStep_linear (n : Nat) : ∀ x y, powStep n (x ^^^ y) = powStep n x ^^^ powStep n y := by
  induction n with
  | zero => intro x y; rfl
  | succ m ih => intro x y; simp only [powStep, gfStep_linear, ih]

theorem powStep_zero (n : Nat) : powStep n 0 = 0 := by
  induction n with
  | zero => rfl
  | succ m ih => simp only [powStep, gfStep_zero, ih]

theorem powStep_exp (n : Nat) : ∀ j, j + n ≤ 508 → powStep n (gfExp j) = gfExp (j + n) := by
  induction n with
  | zero => intro j _; rfl
  | succ m ih =>
    intro j hj
    have h1 : gfStep (gfExp j) = gfExp (j + 1) := expStep j (by omega)
    simp only [powStep, h1]
    have := ih (j + 1) (by omega)
    rw [this]
    congr 1
    omega

theorem gfMul_powStep (a x : Nat) (ha : 1 ≤ a) (ha2 : a < 256) (hx : x < 256) :
    gfMul a x = powStep (gfLog a) x := by
  rcases Nat.eq_zero_or_pos x with hx0 | hx1
  · subst hx0
    simp [gfMul, powStep_zero]
  · have hea := expLog a ha2 ha
    have hex := expLog x hx hx1
    have hmul : gfMul a x = gfExp (gfLog a + gfLog x) := by
      simp only [gfMul]
      rw [if_neg]
      push_neg
      omega
    rw [hmul]
    have hps := powStep_exp (gfLog a) (gfLog x) (by omega)
    calc gfExp (gfLog a + gfLog x) = gfExp (gfLog x + gfLog a) := by rw [Nat.add_comm]
      _ = powStep (gfLog a) (gfExp (gfLog x)) := hps.symm
      _ = powStep (gfLog a) x := by rw [hex.1]

theorem gfMul_xor (a x y : Nat) (ha : a < 256) (hx : x < 256) (hy : y < 256) :
    gfMul a (x ^^^ y) = gfMul a x ^^^ gfMul a y := by
  rcases Nat.eq_zero_or_pos a with ha0 | ha1
  · subst ha0; simp [gfMul]
  · have h256 : (2:Nat)^8 = 256 := by norm_num
    have hxy : x ^^^ y < 256 :=
      h256 ▸ @Nat.xor_lt_two_pow x y 8 (h256.symm ▸ hx) (h256.symm ▸ hy)
    rw [gfMul_powStep a (x ^^^ y) ha1 ha hxy, gfMul_powStep a x ha1 ha hx,
      gfMul_powStep a y ha1 ha hy, powStep_linear]

theorem gfMul_comm (a b : Nat) : gfMul a b = gfMul b a := by
  simp only [gfMul, Nat.add_comm]
  by_cases h : a = 0 ∨ b = 0
  · rcases h with h | h <;> simp [h]
  · push_neg at h
    rw [if_neg, if_neg] <;> push_neg <;> omega

theorem gfMul_lt (a b : Nat) : gfMul a b < 256 := by
  simp only [gfMul]
  split
  · omega
  · exact byteAt_lt gfExpP _

theorem gfMul_zero (a : Nat) : gfMul a 0 = 0 := by simp [gfMul]

theorem zero_gfMul (a : Nat) : gfMul 0 a = 0 := by simp [gfMul]

theorem gfExp_lt (i : Nat) : gfExp i < 256 := byteAt_lt gfExpP i

theorem gfMul_nonzero (a b : Nat) (ha : 1 ≤ a) (ha2 : a < 256) (hb : 1 ≤ b) (hb2 : b < 256) :
    gfMul a b = gfExp (gfLog a + gfLog b) ∧ 1 ≤ gfMul a b ∧
    gfLog (gfMul a b) = (gfLog a + gfLog b) % 255 := by
  have hea := expLog a ha2 ha
  have heb := expLog b hb2 hb
  have hmul : gfMul a b = gfExp (gfLog a + gfLog b) := by
    simp only [gfMul]
    rw [if_neg]
    push_neg
    omega
  have hrange := logExp (gfLog a + gfLog b) (by omega)
  exact ⟨hmul, hmul ▸ hrange.1, hmul ▸ hrange.2.2⟩

theorem gfMul_assoc (a b c : Nat) (ha : a < 256) (hb : b < 256) (hc : c < 256) :
    gfMul (gfMul a b) c = gfMul a (gfMul b c) := by
  rcases Nat.eq_zero_or_pos a with h0 | ha1
  · subst h0; simp [gfMul]
  rcases Nat.eq_zero_or_pos b with h0 | hb1
  · subst h0; simp [gfMul]
  rcases Nat.eq_zero_or_pos c with h0 | hc1
  · subst h0; simp [gfMul]
  have hab := gfMul_nonzero a b ha1 ha hb1 hb
  have hbc := gfMul_nonzero b c hb1 hb hc1 hc
  have habc := gfMul_nonzero (gfMul a b) c hab.2.1 (gfMul_lt a b) hc1 hc
  have habc2 := gfMul_nonzero a (gfMul b c) ha1 ha hbc.2.1 (gfMul_lt b c)
  have hla := (expLog a ha ha1).2
  have hlb := (expLog b hb hb1).2
  have hlc := (expLog c hc hc1).2
  rw [habc.1, hab.2.2, habc2.1, hbc.2.2]
  rw [expMod ((gfLog a + gfLog b) % 255 + gfLog c) (by omega),
      expMod (gfLog a + (gfLog b + gfLog c) % 255) (by omega)]
  congr 1
  rw [Nat.mod_add_mod, Nat.add_mod_mod, Nat.add_assoc]

theorem gfLog_one : gfLog 1 = 0 := by decide

theorem gfMul_one (a : Nat) (ha : a < 256) : gfMul a 1 = a := by
  rcases Nat.eq_zero_or_pos a with h0 | ha1
  · subst h0; simp [gfMul]
  · have h := gfMul_nonzero a 1 ha1 ha (by omega) (by omega)
    rw [h.1, gfLog_one, Nat.add_zero, (expLog a ha ha1).1]

theorem one_gfMul (a : Nat) (ha : a < 256) : gfMul 1 a = a := by
  rw [gfMul_comm, gfMul_one a ha]

/-- C7: field consistency of the GF(2^8) tables built from the primitive
polynomial x^8+x^4+x^3+x^2+1: for all nonzero bytes a, b,
gfDiv (gfMul a b) b = a and gfMul a (gfInverse a) = 1. -/
theorem gf_field_consistency (a b : Nat) (ha1 : 1 ≤ a) (ha : a < 256)
    (hb1 : 1 ≤ b) (hb : b < 256) :
    gfDiv (gfMul a b) b = a ∧ gfMul a (gfInverse a) = 1 := by
  have hab := gfMul_nonzero a b ha1 ha hb1 hb
  have hla := (expLog a ha ha1).2
  have hlb := (expLog b hb hb1).2
  constructor
  · simp only [gfDiv]
    rw [if_neg (by omega)]
    rw [hab.2.2]
    have harg : ((gfLog a + gfLog b) % 255 + 255 - gfLog b) % 255 = gfLog a := by
      omega
    rw [harg, (expLog a ha ha1).1]
  · simp only [gfInverse]
    have hinv := logExp (255 - gfLog a) (by omega)
    have h := gfMul_nonzero a (gfExp (255 - gfLog a)) ha1 ha hinv.1 (gfExp_lt _)
    rw [h.1, hinv.2.2]
    rw [expMod (gfLog a + (255 - gfLog a) % 255) (by omega)]
    have harg : (gfLog a + (255 - gfLog a) % 255) % 255 = 0 := by omega
    rw [harg, gfExp_zero]

theorem gf_field_consistency_check : gfDiv (gfMul 7 11) 11 = 7 ∧ gfMul 7 (gfInverse 7) = 1 :=
  gf_field_consistency 7 11 (by norm_num) (by norm_num) (by norm_num) (by norm_num)

-- ---------------------------------------------------------------------------
-- C8: header bit-packing round trip
-- ---------------------------------------------------------------------------

theorem nibble_pack : ∀ v < 16, ∀ c < 16,
    (((v &&& 0xF) <<< 4) ||| (c &&& 0xF)) = (v <<< 4) ||| c ∧
    (((v <<< 4) ||| c) >>> 4) &&& 0xF = v ∧
    ((v <<< 4) ||| c) &&& 0xF = c := by decide

/-- C8: for all 4-bit fields, encodeHeader packs byte0 = (version<<4)|compType
and byte1 = (fecLevel<<4)|flags, and decodeHeader inverts this exactly
(reserved flag bits included); in particular bytes 0x10 0x00 decode to
version 1, compType 0, fecLevel 0, flags 0. -/
theorem header_roundtrip :
    (∀ version compType fecLevel flags : Nat,
      version < 16 → compType < 16 → fecLevel < 16 → flags < 16 →
      encodeHeader version compType fecLevel flags =
        [(version <<< 4) ||| compType, (fecLevel <<< 4) ||| flags] ∧
      decodeHeader (encodeHeader version compType fecLevel flags) =
        .ok ⟨version, compType, fecLevel, flags⟩) ∧
    decodeHeader [0x10, 0x00] = .ok ⟨1, 0, 0, 0⟩ := by
  constructor
  · intro v c f fl hv hc hf hfl
    have h1 := nibble_pack v hv c hc
    have h2 := nibble_pack f hf fl hfl
    constructor
    · simp only [encodeHeader, h1.1, h2.1]
    · simp only [encodeHeader, decodeHeader, h1.1, h2.1]
      norm_num [HEADER_SIZE]
      exact ⟨h1.2.1, h1.2.2, h2.2.1, h2.2.2⟩
  · decide

/-- Witness for C8 at version 1, compType 2, fecLevel 3, flags 5. -/
theorem header_roundtrip_check :
    encodeHeader 1 2 3 5 = [0x12, 0x35] ∧
    decodeHeader (encodeHeader 1 2 3 5) = .ok ⟨1, 2, 3, 5⟩ := by
  have h := header_roundtrip.1 1 2 3 5 (by norm_num) (by norm_num) (by norm_num)
    (by norm_num)
  refine ⟨?_, h.2⟩
  rw [h.1]
  decide

-- ---------------------------------------------------------------------------
-- Horner evaluation lemmas
-- ---------------------------------------------------------------------------

theorem xor_lt_256 (a b : Nat) (ha : a < 256) (hb : b < 256) : a ^^^ b < 256 := by
  have h256 : (2:Nat)^8 = 256 := by norm_num
  exact h256 ▸ @Nat.xor_lt_two_pow a b 8 (h256.symm ▸ ha) (h256.symm ▸ hb)

theorem gfMul_xor_left (a b c : Nat) (ha : a < 256) (hb : b < 256) (hc : c < 256) :
    gfMul (a ^^^ b) c = gfMul a c ^^^ gfMul b c := by
  rw [gfMul_comm (a ^^^ b) c, gfMul_comm a c, gfMul_comm b c]
  exact gfMul_xor c a b hc ha hb

theorem powx_lt (x n : Nat) : powx x n < 256 := by
  cases n with
  | zero => norm_num [powx]
  | succ m => exact gfMul_lt _ _

theorem polyEval_lt (p : List Nat) (x : Nat) (hp : ∀ b ∈ p, b < 256) :
    polyEval p x < 256 := by
  match p with
  | [] => simp [polyEval]
  | h :: t =>
    simp only [polyEval]
    have hh : h < 256 := hp h (by simp)
    have ht : ∀ b ∈ t, b < 256 := fun b hb => hp b (by simp [hb])
    clear hp
    induction t generalizing h with
    | nil => simpa using hh
    | cons c t ih =>
      simp only [List.foldl]
      refine ih _ (xor_lt_256 _ _ (gfMul_lt _ _) (ht c (by simp))) ?_
      intro b hb
      exact ht b (by simp [hb])

theorem polyEval_snoc (l : List Nat) (a x : Nat) :
    polyEval (l ++ [a]) x = gfMul (polyEval l x) x ^^^ a := by
  match l with
  | [] => simp [polyEval, gfMul]
  | h :: t => simp [polyEval, List.foldl_append]

theorem polyEval_append (p q : List Nat) (x : Nat) (hp : ∀ b ∈ p, b < 256)
    (hq : ∀ b ∈ q, b < 256) (hx : x < 256) :
    polyEval (p ++ q) x = gfMul (polyEval p x) (powx x q.length) ^^^ polyEval q x := by
  induction q using List.reverseRecOn with
  | nil =>
    simp only [List.append_nil, List.length_nil]
    rw [show powx x 0 = 1 from rfl, gfMul_one _ (polyEval_lt p x hp)]
    simp [polyEval]
  | append_singleton q a ih =>
    have hq' : ∀ b ∈ q, b < 256 := fun b hb => hq b (by simp [hb])
    rw [← List.append_assoc, polyEval_snoc, polyEval_snoc, ih hq']
    have hlen : (q ++ [a]).length = q.length + 1 := by simp
    rw [hlen, show powx x (q.length + 1) = gfMul (powx x q.length) x from rfl]
    rw [gfMul_xor_left _ _ x (gfMul_lt _ _) (polyEval_lt q x hq') hx]
    rw [gfMul_assoc _ _ x (polyEval_lt p x hp) (powx_lt x q.length) hx]
    rw [Nat.xor_assoc]

theorem polyEval_cons (c : Nat) (rest : List Nat) (x : Nat) (hc : c < 256)
    (hrest : ∀ b ∈ rest, b < 256) (hx : x < 256) :
    polyEval (c :: rest) x = gfMul c (powx x rest.length) ^^^ polyEval rest x := by
  have h := polyEval_append [c] rest x (by intro b hb; simp at hb; omega) hrest hx
  simpa [polyEval] using h

theorem polyEval_zero_cons (rest : List Nat) (x : Nat) :
    polyEval (0 :: rest) x = polyEval rest x := by
  match rest with
  | [] => simp [polyEval]
  | r :: t => simp [polyEval, gfMul]

theorem polyEval_replicate_zero (n : Nat) (x : Nat) :
    polyEval (List.replicate n 0) x = 0 := by
  induction n with
  | zero => simp [polyEval]
  | succ m ih => rw [List.replicate_succ, polyEval_zero_cons, ih]

theorem powx_add (x a b : Nat) (hx : x < 256) :
    powx x (a + b) = gfMul (powx x a) (powx x b) := by
  induction b with
  | zero =>
    rw [Nat.add_zero, show powx x 0 = 1 from rfl, gfMul_one _ (powx_lt x a)]
  | succ m ih =>
    rw [show a + (m + 1) = (a + m) + 1 from rfl]
    rw [show powx x ((a + m) + 1) = gfMul (powx x (a + m)) x from rfl]
    rw [ih, gfMul_assoc _ _ _ (powx_lt x a) (powx_lt x m) hx]
    congr 1

theorem zipXor_lt (p : List Nat) : ∀ (q : List Nat), (∀ b ∈ p, b < 256) →
    (∀ b ∈ q, b < 256) → ∀ b ∈ p.zipWith (· ^^^ ·) q, b < 256 := by
  induction p with
  | nil => intro q _ _ b hb; simp at hb
  | cons a p ih =>
    intro q hp hq b hb
    cases q with
    | nil => simp at hb
    | cons c t =>
      simp only [List.zipWith_cons_cons, List.mem_cons] at hb
      rcases hb with h | h
      · subst h
        exact xor_lt_256 a c (hp a (by simp)) (hq c (by simp))
      · exact ih t (fun u hu => hp u (by simp [hu])) (fun u hu => hq u (by simp [hu])) b h

theorem polyEval_zipWith_xor (p : List Nat) : ∀ (q : List Nat) (x : Nat),
    p.length = q.length → (∀ b ∈ p, b < 256) →
    (∀ b ∈ q, b < 256) → x < 256 →
    polyEval (p.zipWith (· ^^^ ·) q) x = polyEval p x ^^^ polyEval q x := by
  induction p with
  | nil =>
    intro q x hlen _ _ _
    cases q with
    | nil => simp [polyEval]
    | cons b t => simp at hlen
  | cons a p ih =>
    intro q x hlen hp hq hx
    cases q with
    | nil => simp at hlen
    | cons b t =>
      have hlen' : p.length = t.length := by simpa using hlen
      have ha : a < 256 := hp a (by simp)
      have hb : b < 256 := hq b (by simp)
      have hp' : ∀ c ∈ p, c < 256 := fun c hc => hp c (by simp [hc])
      have ht' : ∀ c ∈ t, c < 256 := fun c hc => hq c (by simp [hc])
      simp only [List.zipWith_cons_cons]
      rw [polyEval_cons _ _ _ (xor_lt_256 a b ha hb) (zipXor_lt p t hp' ht') hx]
      rw [polyEval_cons a p x ha hp' hx, polyEval_cons b t x hb ht' hx]
      have hzl : (p.zipWith (· ^^^ ·) t).length = p.length := by
        rw [List.length_zipWith]
        omega
      rw [hzl, ih t x hlen' hp' ht' hx, ← hlen']
      rw [gfMul_xor_left a b _ ha hb (powx_lt x p.length)]
      rw [Nat.xor_assoc, Nat.xor_assoc]
      congr 1
      rw [← Nat.xor_assoc, ← Nat.xor_assoc]
      congr 1
      rw [Nat.xor_comm]

theorem polyScale_cons (a : Nat) (p : List Nat) (c : Nat) :
    polyScale (a :: p) c = gfMul a c :: polyScale p c := rfl

theorem polyScale_lt (p : List Nat) (c : Nat) : ∀ b ∈ polyScale p c, b < 256 := by
  intro b hb
  simp only [polyScale, List.mem_map] at hb
  obtain ⟨u, _, hu⟩ := hb
  rw [← hu]
  exact gfMul_lt _ _

theorem polyScale_length (p : List Nat) (c : Nat) :
    (polyScale p c).length = p.length := by simp [polyScale]

theorem polyEval_polyScale (p : List Nat) (c x : Nat) (hp : ∀ b ∈ p, b < 256)
    (hc : c < 256) (hx : x < 256) :
    polyEval (polyScale p c) x = gfMul c (polyEval p x) := by
  induction p with
  | nil => simp [polyEval, polyScale, gfMul]
  | cons a p ih =>
    have ha : a < 256 := hp a (by simp)
    have hp' : ∀ b ∈ p, b < 256 := fun b hb => hp b (by simp [hb])
    rw [polyScale_cons]
    rw [polyEval_cons _ _ _ (gfMul_lt _ _) (polyScale_lt p c) hx]
    rw [polyEval_cons a p x ha hp' hx]
    rw [polyScale_length]
    rw [ih hp']
    rw [gfMul_xor c _ _ hc (gfMul_lt _ _) (polyEval_lt p x hp')]
    congr 1
    rw [gfMul_comm a c, gfMul_assoc c a _ hc ha (powx_lt x p.length)]

-- ---------------------------------------------------------------------------
-- The LFSR encoding loop preserves codeword evaluation at generator roots
-- ---------------------------------------------------------------------------

theorem xorRange_length (fb : List Nat) (k : Nat) (p : List Nat)
    (hk : k ≤ fb.length) (hp : p.length ≤ fb.length - k) :
    (xorRange fb k p).length = fb.length := by
  simp only [xorRange, List.length_append, List.length_take, List.length_zipWith,
    List.length_replicate, List.length_drop]
  omega

theorem xorRange_drop (fb : List Nat) (k : Nat) (p : List Nat) (hk : k ≤ fb.length) :
    (xorRange fb k p).drop k =
      (fb.drop k).zipWith (· ^^^ ·)
        (p ++ List.replicate ((fb.drop k).length - p.length) 0) := by
  simp only [xorRange]
  exact List.drop_left' (by rw [List.length_take]; omega)

theorem xorRange_take (fb : List Nat) (k : Nat) (p : List Nat) (hk : k ≤ fb.length) :
    (xorRange fb k p).take k = fb.take k := by
  simp only [xorRange]
  rw [List.take_append_of_le_length (by rw [List.length_take]; omega),
    List.take_take, Nat.min_self]

theorem append_replicate_lt (p : List Nat) (n : Nat) (hp : ∀ b ∈ p, b < 256) :
    ∀ b ∈ p ++ List.replicate n 0, b < 256 := by
  intro b hb
  rcases List.mem_append.mp hb with h | h
  · exact hp b h
  · rw [List.eq_of_mem_replicate h]
    norm_num

theorem drop_lt (fb : List Nat) (k : Nat) (hfb : ∀ b ∈ fb, b < 256) :
    ∀ b ∈ fb.drop k, b < 256 := fun b hb => hfb b (List.mem_of_mem_drop hb)

/-- Key step lemma: one iteration of the rsEncodeMsg loop leaves the Horner
evaluation of the not-yet-processed suffix at any root of the generator
unchanged (the processed coefficient's contribution is exactly cancelled by
the XORed-in multiple of the generator tail). -/
theorem encodeStep_eval (gen fb : List Nat) (i : Nat) (pt : Nat)
    (hfb : ∀ b ∈ fb, b < 256) (hgen : ∀ b ∈ gen, b < 256) (hpt : pt < 256)
    (hg1 : 1 ≤ gen.length) (hlen : i + gen.length ≤ fb.length)
    (hgeval : polyEval (gen.drop 1) pt = powx pt (gen.length - 1)) :
    polyEval ((encodeStep gen fb i).drop (i + 1)) pt = polyEval (fb.drop i) pt ∧
    (encodeStep gen fb i).length = fb.length ∧
    (∀ b ∈ encodeStep gen fb i, b < 256) := by
  have hi : i < fb.length := by omega
  have hdropi : fb.drop i = fb.getD i 0 :: fb.drop (i + 1) := by
    rw [List.getD_eq_getElem fb 0 hi]
    exact List.drop_eq_getElem_cons hi
  simp only [encodeStep]
  by_cases hcoef : fb.getD i 0 ≠ 0
  · rw [if_pos hcoef]
    set coef := fb.getD i 0 with hcoefdef
    have hcoef2 : coef < 256 := by
      have hmem : coef ∈ fb := by
        rw [hcoefdef, List.getD_eq_getElem fb 0 hi]
        exact List.getElem_mem hi
      exact hfb coef hmem
    set q := polyScale (gen.drop 1) coef with hq
    have hqlen : q.length = gen.length - 1 := by
      rw [hq, polyScale_length, List.length_drop]
    have hqlt : ∀ b ∈ q, b < 256 := polyScale_lt _ _
    have hrestlen : (fb.drop (i + 1)).length = fb.length - (i + 1) := by
      rw [List.length_drop]
    have hqle : q.length ≤ fb.length - (i + 1) := by omega
    have hdrop := xorRange_drop fb (i + 1) q (by omega)
    refine ⟨?_, xorRange_length fb (i + 1) q (by omega) (by omega), ?_⟩
    · rw [hdrop]
      set pad := (fb.drop (i + 1)).length - q.length with hpad
      have hpadded_len : (q ++ List.replicate pad 0).length = (fb.drop (i + 1)).length := by
        simp only [List.length_append, List.length_replicate]
        omega
      rw [polyEval_zipWith_xor _ _ pt hpadded_len.symm
        (drop_lt fb (i + 1) hfb) (append_replicate_lt q pad hqlt) hpt]
      rw [polyEval_append q (List.replicate pad 0) pt hqlt
        (by intro b hb; rw [List.eq_of_mem_replicate hb]; norm_num) hpt]
      rw [polyEval_replicate_zero, Nat.xor_zero, List.length_replicate]
      rw [hq, polyEval_polyScale _ _ _ (drop_lt gen 1 hgen) hcoef2 hpt, hgeval]
      rw [gfMul_assoc coef _ _ hcoef2 (powx_lt _ _) (powx_lt _ _)]
      rw [← powx_add pt _ _ hpt]
      have harith : gen.length - 1 + pad = (fb.drop (i + 1)).length := by omega
      rw [harith]
      rw [hdropi, polyEval_cons _ _ _ hcoef2 (drop_lt fb (i + 1) hfb) hpt]
      rw [Nat.xor_comm]
    · intro b hb
      have hsplit := List.mem_append.mp
        ((List.take_append_drop (i + 1) (xorRange fb (i + 1) q)).symm ▸ hb)
      rcases hsplit with h | h
      · rw [xorRange_take fb (i + 1) q (by omega)] at h
        exact hfb b (List.mem_of_mem_take h)
      · rw [hdrop] at h
        exact zipXor_lt _ _ (drop_lt fb (i + 1) hfb)
          (append_replicate_lt q _ hqlt) b h
  · rw [if_neg hcoef]
    push_neg at hcoef
    refine ⟨?_, rfl, hfb⟩
    rw [hdropi, hcoef, polyEval_zero_cons]

/-- The whole encoding loop preserves suffix evaluation at generator roots. -/
theorem encodeLoop_eval (gen : List Nat) (pt : Nat) (hgen : ∀ b ∈ gen, b < 256)
    (hpt : pt < 256) (hg1 : 1 ≤ gen.length)
    (hgeval : polyEval (gen.drop 1) pt = powx pt (gen.length - 1)) :
    ∀ (n : Nat) (fb : List Nat) (i : Nat), (∀ b ∈ fb, b < 256) →
      i + n + gen.length ≤ fb.length + 1 →
      polyEval ((encodeLoop gen fb i n).drop (i + n)) pt = polyEval (fb.drop i) pt ∧
      (encodeLoop gen fb i n).length = fb.length ∧
      (∀ b ∈ encodeLoop gen fb i n, b < 256) := by
  intro n
  induction n with
  | zero =>
    intro fb i hfb _
    refine ⟨?_, rfl, hfb⟩
    simp only [encodeLoop, Nat.add_zero]
  | succ m ih =>
    intro fb i hfb hlen
    have hstep := encodeStep_eval gen fb i pt hfb hgen hpt hg1 (by omega) hgeval
    have hrec := ih (encodeStep gen fb i) (i + 1) hstep.2.2
      (by rw [hstep.2.1]; omega)
    simp only [encodeLoop]
    refine ⟨?_, by rw [hrec.2.1, hstep.2.1], hrec.2.2⟩
    have harith : i + (m + 1) = i + 1 + m := by omega
    rw [harith, hrec.1, hstep.1]

-- ---------------------------------------------------------------------------
-- A valid codeword has all-zero syndromes; C4 (encode shape + clean decode)
-- ---------------------------------------------------------------------------

theorem replicate_getD (n i d : Nat) : (List.replicate n d).getD i d = d := by
  rcases Nat.lt_or_ge i n with h | h
  · rw [List.getD_eq_getElem _ _ (by simpa using h)]
    simp
  · rw [List.getD_eq_default _ _ (by simpa using h)]

theorem rsEncode_syndromes_zero (msg : List Nat) (nsym : Nat)
    (hmsg : ∀ b ∈ msg, b < 256) (hn : 1 ≤ nsym)
    (hglen : (buildGenerator nsym).length = nsym + 1)
    (hglt : ∀ b ∈ buildGenerator nsym, b < 256)
    (hgeval : ∀ s, s < nsym →
      polyEval ((buildGenerator nsym).drop 1) (gfExp s) = powx (gfExp s) nsym) :
    (rsEncodeMsg msg nsym).length = nsym ∧
    (∀ b ∈ rsEncodeMsg msg nsym, b < 256) ∧
    rsCalcSyndromes (msg ++ rsEncodeMsg msg nsym) nsym = List.replicate nsym 0 := by
  have hfb0 : ∀ b ∈ msg ++ List.replicate nsym 0, b < 256 :=
    append_replicate_lt msg nsym hmsg
  have hfb0len : (msg ++ List.replicate nsym 0).length = msg.length + nsym := by
    simp
  have hloop : ∀ pt, pt < 256 →
      polyEval ((buildGenerator nsym).drop 1) pt = powx pt nsym →
      polyEval ((encodeLoop (buildGenerator nsym) (msg ++ List.replicate nsym 0)
          0 msg.length).drop msg.length) pt
        = polyEval (msg ++ List.replicate nsym 0) pt ∧
      (encodeLoop (buildGenerator nsym) (msg ++ List.replicate nsym 0)
          0 msg.length).length = msg.length + nsym ∧
      ∀ b ∈ encodeLoop (buildGenerator nsym) (msg ++ List.replicate nsym 0)
          0 msg.length, b < 256 := by
    intro pt hpt hev
    have h := encodeLoop_eval (buildGenerator nsym) pt hglt hpt (by omega)
      (by rw [hev, hglen]; simp) msg.length (msg ++ List.replicate nsym 0) 0
      hfb0 (by rw [hfb0len, hglen]; omega)
    refine ⟨?_, by rw [h.2.1, hfb0len], h.2.2⟩
    have h0 : (0:Nat) + msg.length = msg.length := by omega
    rw [h0] at h
    rw [h.1, List.drop_zero]
  -- instantiate once at gfExp 0 for the length/bound facts
  have hbase := hloop (gfExp 0) (gfExp_lt 0) (hgeval 0 hn)
  have hparlen : (rsEncodeMsg msg nsym).length = nsym := by
    simp only [rsEncodeMsg, List.length_drop]
    rw [hbase.2.1]
    omega
  have hparlt : ∀ b ∈ rsEncodeMsg msg nsym, b < 256 := by
    simp only [rsEncodeMsg]
    exact drop_lt _ _ hbase.2.2
  refine ⟨hparlen, hparlt, ?_⟩
  have hzero : ∀ s, s < nsym →
      polyEval (msg ++ rsEncodeMsg msg nsym) (gfExp s) = 0 := by
    intro s hs
    have hpt := gfExp_lt s
    have hinv := hloop (gfExp s) hpt (hgeval s hs)
    have hpar : polyEval (rsEncodeMsg msg nsym) (gfExp s)
        = polyEval (msg ++ List.replicate nsym 0) (gfExp s) := by
      simpa only [rsEncodeMsg] using hinv.1
    rw [polyEval_append msg (rsEncodeMsg msg nsym) (gfExp s) hmsg hparlt hpt]
    rw [hpar]
    rw [polyEval_append msg (List.replicate nsym 0) (gfExp s) hmsg
      (by intro b hb; rw [List.eq_of_mem_replicate hb]; norm_num) hpt]
    rw [polyEval_replicate_zero, Nat.xor_zero, List.length_replicate, hparlen]
    exact Nat.xor_self _
  simp only [rsCalcSyndromes]
  refine List.eq_replicate_iff.mpr ⟨by simp, ?_⟩
  intro b hb
  simp only [List.mem_map, List.mem_range] at hb
  obtain ⟨i, hi, hv⟩ := hb
  rw [← hv]
  exact hzero i hi

def gen16Lit : List Nat := [1, 59, 13, 104, 189, 68, 209, 30, 8, 163, 65, 41, 229, 98, 50, 36, 59]

theorem gen16_lit : buildGenerator 16 = gen16Lit := by decide

theorem genOk16 : (buildGenerator 16).length = 17 ∧
    (∀ b ∈ buildGenerator 16, b < 256) ∧
    ∀ s, s < 16 → polyEval ((buildGenerator 16).drop 1) (gfExp s)
      = powx (gfExp s) 16 := by
  rw [gen16_lit]
  decide

theorem level_pos (L : FecLevel) : 1 ≤ LEVELS L := by cases L <;> simp [LEVELS]

def gen32Lit : List Nat := [1, 116, 64, 52, 174, 54, 126, 16, 194, 162, 33, 33, 157, 176, 197, 225, 12, 59, 55, 253, 228, 148, 47, 179, 185, 24, 138, 253, 20, 142, 55, 172, 88]

def gen64Lit : List Nat := [1, 193, 10, 255, 58, 128, 183, 115, 140, 153, 147, 91, 197, 219, 221, 220, 142, 28, 120, 21, 164, 147, 6, 204, 40, 230, 182, 14, 121, 48, 143, 77, 228, 81, 85, 43, 162, 16, 195, 163, 35, 149, 154, 35, 132, 100, 100, 51, 176, 11, 161, 134, 208, 132, 244, 176, 192, 221, 232, 171, 125, 155, 228, 242, 245]

theorem gen32_lit : buildGenerator 32 = gen32Lit := by decide

theorem gen64_lit : buildGenerator 64 = gen64Lit := by decide

theorem genOk32 : (buildGenerator 32).length = 33 ∧
    (∀ b ∈ buildGenerator 32, b < 256) ∧
    ∀ s, s < 32 → polyEval ((buildGenerator 32).drop 1) (gfExp s)
      = powx (gfExp s) 32 := by
  rw [gen32_lit]
  decide

theorem genOk64 : (buildGenerator 64).length = 65 ∧
    (∀ b ∈ buildGenerator 64, b < 256) ∧
    ∀ s, s < 64 → polyEval ((buildGenerator 64).drop 1) (gfExp s)
      = powx (gfExp s) 64 := by
  rw [gen64_lit]
  decide

theorem any_synd_replicate_zero (n : Nat) :
    ((List.range n).any (fun i => decide ((List.replicate n 0).getD i 0 ≠ 0))) = false := by
  rw [List.any_eq_false]
  intro i _
  rw [replicate_getD]
  simp

/-- Shared round-trip fact: fec.encode appends exactly parityBytes(L)
parity symbols, the codeword's syndromes are all zero, and fec.decode of
the untouched codeword returns exactly the message. -/
theorem fecRound_clean (m : List Nat) (L : FecLevel)
    (hm : ∀ b ∈ m, b < 256) (hlen : m.length + LEVELS L ≤ 255) :
    fecEncode m L = .ok (m ++ rsEncodeMsg m (LEVELS L)) ∧
    (rsEncodeMsg m (LEVELS L)).length = LEVELS L ∧
    rsCalcSyndromes (m ++ rsEncodeMsg m (LEVELS L)) (LEVELS L)
      = List.replicate (LEVELS L) 0 ∧
    fecDecode (m ++ rsEncodeMsg m (LEVELS L)) L = .ok m := by
  have hg : (buildGenerator (LEVELS L)).length = LEVELS L + 1 ∧
      (∀ b ∈ buildGenerator (LEVELS L), b < 256) ∧
      ∀ s, s < LEVELS L → polyEval ((buildGenerator (LEVELS L)).drop 1) (gfExp s)
        = powx (gfExp s) (LEVELS L) := by
    cases L
    · exact genOk16
    · exact genOk32
    · exact genOk64
  have hspec := rsEncode_syndromes_zero m (LEVELS L) hm (level_pos L) hg.1 hg.2.1
    hg.2.2
  have hclen : (m ++ rsEncodeMsg m (LEVELS L)).length = m.length + LEVELS L := by
    rw [List.length_append, hspec.1]
  refine ⟨?_, hspec.1, hspec.2.2, ?_⟩
  · simp only [fecEncode]
    rw [if_neg (by omega)]
  · simp only [fecDecode]
    rw [if_neg (by omega)]
    simp only [rsDecodeMsg]
    rw [hspec.2.2]
    rw [any_synd_replicate_zero]
    have hcond : ¬false = true := by simp
    rw [if_pos hcond]
    rw [hclen]
    have htake : (m ++ rsEncodeMsg m (LEVELS L)).take (m.length + LEVELS L - LEVELS L) = m := by
      have hminus : m.length + LEVELS L - LEVELS L = m.length := by omega
      rw [hminus]
      exact List.take_left m (rsEncodeMsg m (LEVELS L))
    rw [htake]

/-- C4: fec.encode appends exactly parityBytes(L) parity symbols to the
message, and fec.decode of the untouched codeword takes the all-zero
syndrome path and returns exactly the message. -/
theorem fec_encode_clean_decode (m : List Nat) (L : FecLevel)
    (hm : ∀ b ∈ m, b < 256) (hlen : m.length + LEVELS L ≤ 255) :
    fecEncode m L = .ok (m ++ rsEncodeMsg m (LEVELS L)) ∧
    (rsEncodeMsg m (LEVELS L)).length = LEVELS L ∧
    rsCalcSyndromes (m ++ rsEncodeMsg m (LEVELS L)) (LEVELS L)
      = List.replicate (LEVELS L) 0 ∧
    fecDecode (m ++ rsEncodeMsg m (LEVELS L)) L = .ok m :=
  fecRound_clean m L hm hlen

/-- Witness for C4: 100 bytes 0x41 at medium yield a 132-byte codeword that
decodes cleanly. -/
theorem fec_encode_clean_decode_check :
    fecEncode (List.replicate 100 0x41) .medium
      = .ok (List.replicate 100 0x41 ++ rsEncodeMsg (List.replicate 100 0x41) (LEVELS .medium)) ∧
    (List.replicate 100 0x41 ++ rsEncodeMsg (List.replicate 100 0x41) (LEVELS .medium)).length = 132 ∧
    fecDecode (List.replicate 100 0x41 ++ rsEncodeMsg (List.replicate 100 0x41) (LEVELS .medium)) .medium
      = .ok (List.replicate 100 0x41) := by
  have h := fec_encode_clean_decode (List.replicate 100 0x41) .medium
    (by intro b hb; rw [List.eq_of_mem_replicate hb]; norm_num)
    (by simp [LEVELS])
  refine ⟨h.1, ?_, h.2.2.2⟩
  rw [List.length_append, List.length_replicate, h.2.1]
  simp [LEVELS]

-- ---------------------------------------------------------------------------
-- C5: the correction path always re-verifies syndromes before returning
-- ---------------------------------------------------------------------------

/-- C5: whenever decode takes the correction path (some syndrome non-zero)
and returns data, the Forney-corrected block passed verification: its
recomputed syndromes are all zero and the data is its parity-stripped
prefix.  A corrected block with a non-zero residual syndrome is never
returned (the code fails with the residual-syndromes error instead). -/
theorem rs_verify_after_correct (msg : List Nat) (nsym : Nat) (d : List Nat)
    (hdirty : ((List.range nsym).any
      (fun i => decide ((rsCalcSyndromes msg nsym).getD i 0 ≠ 0))) = true)
    (hok : rsDecodeMsg msg nsym = .ok d) :
    ∃ errLoc errPos corrected,
      rsFindErrorLocator (rsCalcSyndromes msg nsym) nsym = .ok errLoc ∧
      rsFindErrors errLoc msg.length = .ok errPos ∧
      rsCorrectErrors msg (rsCalcSyndromes msg nsym) errPos = .ok corrected ∧
      (∀ i, i < nsym → (rsCalcSyndromes corrected nsym).getD i 0 = 0) ∧
      d = corrected.take (corrected.length - nsym) := by
  simp only [rsDecodeMsg] at hok
  rw [hdirty] at hok
  simp only [not_true, if_false] at hok
  split at hok
  · exact absurd hok (by simp)
  · rename_i errLoc h1
    split at hok
    · exact absurd hok (by simp)
    · rename_i errPos h2
      split at hok
      · exact absurd hok (by simp)
      · rename_i corrected h3
        split at hok
        · exact absurd hok (by simp)
        · rename_i h4
          rw [Bool.not_eq_true] at h4
          refine ⟨errLoc, errPos, corrected, h1, h2, h3, ?_, ?_⟩
          · intro i hi
            have hnone := List.any_eq_false.mp h4 i (List.mem_range.mpr hi)
            simpa using hnone
          · cases hok
            rfl

/-- Witness for C5: a codeword at level low with its last byte corrupted
takes the correction path and decodes successfully, so the corrected block
verifies. -/
theorem rs_verify_after_correct_check :
    ∃ errLoc errPos corrected,
      rsFindErrorLocator (rsCalcSyndromes
        [1, 2, 3, 4, 66, 90, 33, 47, 162, 231, 21, 226, 204, 53, 98, 170, 61, 239, 127, 105] 16) 16
        = .ok errLoc ∧
      rsFindErrors errLoc
        ([1, 2, 3, 4, 66, 90, 33, 47, 162, 231, 21, 226, 204, 53, 98, 170, 61, 239, 127, 105] : List Nat).length
        = .ok errPos ∧
      rsCorrectErrors
        [1, 2, 3, 4, 66, 90, 33, 47, 162, 231, 21, 226, 204, 53, 98, 170, 61, 239, 127, 105]
        (rsCalcSyndromes
          [1, 2, 3, 4, 66, 90, 33, 47, 162, 231, 21, 226, 204, 53, 98, 170, 61, 239, 127, 105] 16)
        errPos = .ok corrected ∧
      (∀ i, i < 16 → (rsCalcSyndromes corrected 16).getD i 0 = 0) ∧
      [1, 2, 3, 4] = corrected.take (corrected.length - 16) :=
  rs_verify_after_correct
    [1, 2, 3, 4, 66, 90, 33, 47, 162, 231, 21, 226, 204, 53, 98, 170, 61, 239, 127, 105]
    16 [1, 2, 3, 4] (by decide) (by decide)

/-- C1 evaluated at a failing input: the codeword for [1,2,3,4] at level low
(parity 16, so floor(p/2) = 8 errors should be correctable) with a single
corrupted byte at position 0 does not decode back to the message; the
decoder's Forney magnitudes are wrong (the Xi factor is missing), the
re-verification sees non-zero residual syndromes and decode throws. -/
theorem bounded_correction_bug :
    fecEncode [1, 2, 3, 4] .low
      = .ok [1, 2, 3, 4, 66, 90, 33, 47, 162, 231, 21, 226, 204, 53, 98, 170, 61, 239, 127, 60] ∧
    fecDecode
      [84, 2, 3, 4, 66, 90, 33, 47, 162, 231, 21, 226, 204, 53, 98, 170, 61, 239, 127, 60] .low
      = .error .verificationFailed := by
  constructor
  · decide
  · decide

-- ---------------------------------------------------------------------------
-- Trie soundness: walks only reach codebook entries
-- ---------------------------------------------------------------------------

theorem findPath_snoc (t : Trie) (q : List Char) (c : Char) :
    findPath t (q ++ [c]) = (findPath t q).bind (fun n => findChild n.children c) := by
  induction q generalizing t with
  | nil =>
    simp only [List.nil_append, findPath, Option.bind]
    cases findChild t.children c <;> simp [findPath]
  | cons d q ih =>
    simp only [List.cons_append, findPath]
    cases findChild t.children d with
    | none => simp
    | some n => simpa using ih n

theorem children_all_find {f : Char × Trie → Bool} {l : List (Char × Trie)}
    {c : Char} {n : Trie} (hall : l.all f = true) (hfind : findChild l c = some n) :
    f (c, n) = true := by
  induction l with
  | nil => simp [findChild] at hfind
  | cons p rest ih =>
    rw [List.all_cons, Bool.and_eq_true] at hall
    simp only [findChild] at hfind
    split at hfind
    · rename_i heq
      cases hfind
      obtain ⟨k, m⟩ := p
      simp at heq
      subst heq
      exact hall.1
    · exact ih hall.2 hfind

theorem trieOk_path : ∀ (q : List Char) (fuel : Nat) (p : List Char) (t : Trie),
    q.length < fuel → trieOkF fuel p t = true →
    ∀ m, findPath t q = some m → idxOk m.index (p ++ q) = true := by
  intro q
  induction q with
  | nil =>
    intro fuel p t hf hok m hpath
    cases hpath
    cases fuel with
    | zero => omega
    | succ f =>
      simp only [trieOkF, Bool.and_eq_true] at hok
      simpa using hok.1
  | cons c cs ih =>
    intro fuel p t hf hok m hpath
    cases fuel with
    | zero => omega
    | succ f =>
      simp only [trieOkF, Bool.and_eq_true] at hok
      simp only [findPath] at hpath
      cases hchild : findChild t.children c with
      | none => rw [hchild] at hpath; cases hpath
      | some n =>
        rw [hchild] at hpath
        have hsub := children_all_find hok.2 hchild
        have := ih f (p ++ [c]) n (by simpa using Nat.lt_of_succ_lt_succ hf) hsub m hpath
        simpa using this

theorem idxOk_some {i : Nat} {p : List Char} (h : idxOk (some i) p = true) :
    entrySpec i p := by
  simp only [idxOk, Bool.and_eq_true, List.all_eq_true, beq_iff_eq] at h
  refine ⟨h.1, ?_⟩
  intro j hj heq
  have := h.2 j (List.mem_range.mpr hj)
  rcases Bool.or_eq_true .. |>.mp this with h' | h'
  · exact of_decide_eq_true h'
  · rw [Bool.not_eq_eq_eq_not, Bool.not_true, beq_eq_false_iff_ne] at h'
    exact absurd heq h'

theorem entrySpec_lt {i : Nat} {s : List Char} (h : entrySpec i s) (hs : s ≠ []) :
    i < CODEBOOK.length := by
  by_contra hge
  push_neg at hge
  have := h.1
  rw [List.getD_eq_default _ _ hge] at this
  exact hs (this.symm ▸ rfl)

theorem findBest_spec (hchk : trieOkF 8 [] trie = true) :
    ∀ (t : List Char) (fuel : Nat) (pre : List Char) (n : Trie)
      (best : Option (Nat × Nat)),
    findPath trie pre = some n →
    pre.length + fuel ≤ 6 →
    (∀ i l, best = some (i, l) → 1 ≤ l ∧ l ≤ pre.length ∧
      entrySpec i ((pre ++ t).take l)) →
    ∀ i l, findBest n t fuel pre.length best = some (i, l) →
      1 ≤ l ∧ l ≤ pre.length + t.length ∧ entrySpec i ((pre ++ t).take l) := by
  intro t
  induction t with
  | nil =>
    intro fuel pre n best hpath hdepth hbest i l hres
    have hbase : findBest n [] fuel pre.length best = best := by
      cases fuel <;> rfl
    rw [hbase] at hres
    have h := hbest i l hres
    exact ⟨h.1, by omega, h.2.2⟩
  | cons c cs ih =>
    intro fuel pre n best hpath hdepth hbest i l hres
    cases fuel with
    | zero =>
      have h := hbest i l hres
      exact ⟨h.1, by omega, h.2.2⟩
    | succ f =>
      simp only [findBest] at hres
      cases hchild : findChild n.children c with
      | none =>
        rw [hchild] at hres
        have h := hbest i l hres
        exact ⟨h.1, by simp; omega, h.2.2⟩
      | some child =>
        rw [hchild] at hres
        have hpath' : findPath trie (pre ++ [c]) = some child := by
          rw [findPath_snoc, hpath]
          simpa using hchild
        have happ : pre ++ c :: cs = (pre ++ [c]) ++ cs := by
          simp
        have hlen' : (pre ++ [c]).length = pre.length + 1 := by simp
        have hbest' : ∀ i' l',
            (match child.index with
              | some i' => some (i', pre.length + 1)
              | none => best) = some (i', l') →
            1 ≤ l' ∧ l' ≤ (pre ++ [c]).length ∧
            entrySpec i' (((pre ++ [c]) ++ cs).take l') := by
          intro i' l' hb
          cases hidx : child.index with
          | none =>
            rw [hidx] at hb
            have h := hbest i' l' hb
            rw [← happ]
            exact ⟨h.1, by simp; omega, h.2.2⟩
          | some j =>
            rw [hidx] at hb
            cases hb
            have hok := trieOk_path (pre ++ [c]) 8 [] trie
              (by simp; omega) hchk child hpath'
            rw [hidx] at hok
            have hspec := idxOk_some (by simpa using hok)
            refine ⟨by omega, by simp, ?_⟩
            have htake : ((pre ++ [c]) ++ cs).take (pre.length + 1) = pre ++ [c] := by
              rw [List.take_append_of_le_length (by simp)]
              rw [List.take_of_length_le (by simp)]
            rw [htake]
            exact hspec
        have hres' := ih f (pre ++ [c]) child _ hpath' (by simp; omega)
          (by rw [hlen'] at hbest' ⊢; exact hbest') i l (by rw [hlen']; exact hres)
        rw [happ]
        refine ⟨hres'.1, ?_, hres'.2.2⟩
        have := hres'.2.1
        simp at this ⊢
        omega

theorem findBest_top (hchk : trieOkF 8 [] trie = true) (t : List Char) (i l : Nat)
    (hres : findBest trie t MAX_ENTRY_LEN 0 none = some (i, l)) :
    1 ≤ l ∧ l ≤ t.length ∧ entrySpec i (t.take l) ∧ i < CODEBOOK.length := by
  have hmax : MAX_ENTRY_LEN = 6 := by decide
  have h := findBest_spec hchk t MAX_ENTRY_LEN [] trie none rfl (by simp [hmax])
    (by intro i' l' hb; cases hb) i l (by simpa using hres)
  simp only [List.nil_append, List.length_nil, Nat.zero_add] at h
  refine ⟨h.1, h.2.1, h.2.2, ?_⟩
  refine entrySpec_lt h.2.2 ?_
  intro hnil
  have hlen0 : (t.take l).length = 0 := by rw [hnil]; rfl
  rw [List.length_take] at hlen0
  have h1 := h.1
  have h2 := h.2.1
  omega

-- ---------------------------------------------------------------------------
-- Decompression of compressor output (ASCII round trip)
-- ---------------------------------------------------------------------------

theorem utf8Decode_ascii : ∀ (fuel : Nat) (bs : List Nat), bs.length ≤ fuel →
    (∀ b ∈ bs, b < 128) → utf8Decode fuel bs = bs.map (fun b => Char.ofNat b) := by
  intro fuel
  induction fuel with
  | zero =>
    intro bs hlen _
    have hbs : bs = [] := List.length_eq_zero.mp (by omega)
    subst hbs
    rfl
  | succ f ih =>
    intro bs hlen hb
    cases bs with
    | nil => rfl
    | cons b rest =>
      simp only [utf8Decode]
      rw [if_pos (hb b (by simp))]
      rw [ih rest (by simpa using hlen) (fun x hx => hb x (by simp [hx]))]
      rfl

theorem decompressGo_nil (fuel : Nat) : decompressGo fuel [] = .ok [] := by
  cases fuel <;> rfl

theorem decompressGo_fuel_irrel : ∀ (f1 f2 : Nat) (buf : List Nat),
    buf.length ≤ f1 → buf.length ≤ f2 →
    decompressGo f1 buf = decompressGo f2 buf := by
  intro f1
  induction f1 with
  | zero =>
    intro f2 buf hlen _
    have hbuf : buf = [] := List.length_eq_zero.mp (by omega)
    subst hbuf
    rw [decompressGo_nil, decompressGo_nil]
  | succ g ih =>
    intro f2 buf hlen hlen2
    match buf, f2 with
    | [], f2 => rw [decompressGo_nil, decompressGo_nil]
    | b :: rest, 0 => simp at hlen2
    | [b], h + 1 =>
      simp only [decompressGo]
    | b :: len :: rest2, h + 1 =>
      simp only [decompressGo]
      rw [ih h (rest2.drop len) (by simp at hlen ⊢; omega) (by simp at hlen2 ⊢; omega)]
      rw [ih h (len :: rest2) (by simp at hlen ⊢; omega) (by simp at hlen2 ⊢; omega)]

theorem decompress_fuel (fuel : Nat) (buf : List Nat) (h : buf.length ≤ fuel) :
    decompressGo fuel buf = decompress buf :=
  decompressGo_fuel_irrel fuel buf.length buf h (Nat.le_refl _)

theorem flushLiterals_nil (fuel : Nat) : flushLiterals fuel [] = [] := by
  cases fuel with
  | zero => rfl
  | succ f => simp [flushLiterals]

/-- Decompressing flushed ASCII literal chunks prepends the chars. -/
theorem decompress_flush : ∀ (fuelF : Nat) (lit rest : List Nat) (tail : List Char),
    lit.length ≤ fuelF → (∀ b ∈ lit, b < 128) →
    decompress rest = .ok tail →
    decompress (flushLiterals fuelF lit ++ rest)
      = .ok (lit.map (fun b => Char.ofNat b) ++ tail) := by
  intro fuelF
  induction fuelF with
  | zero =>
    intro lit rest tail hlen _ hrest
    have hl : lit = [] := List.length_eq_zero.mp (by omega)
    subst hl
    simpa [flushLiterals] using hrest
  | succ f ih =>
    intro lit rest tail hlen hb hrest
    by_cases hnil : lit = []
    · subst hnil
      simpa [flushLiterals] using hrest
    · have hlit1 : 1 ≤ lit.length := by
        cases lit with
        | nil => exact absurd rfl hnil
        | cons a l => simp
      simp only [flushLiterals, if_neg hnil]
      set chunk := lit.take 255 with hchunk
      set frest := flushLiterals f (lit.drop 255) with hfrest
      have hchlen : chunk.length = min 255 lit.length := by
        rw [hchunk, List.length_take]
      have hrec : decompress (frest ++ rest)
          = .ok ((lit.drop 255).map (fun b => Char.ofNat b) ++ tail) := by
        rw [hfrest]
        refine ih (lit.drop 255) rest tail ?_ ?_ hrest
        · rw [List.length_drop]
          omega
        · intro x hx
          exact hb x (List.mem_of_mem_drop hx)
      -- unfold one decompress step on the marker byte
      have hbuf : (LITERAL_MARKER :: chunk.length :: chunk) ++ frest ++ rest
          = LITERAL_MARKER :: chunk.length :: (chunk ++ (frest ++ rest)) := by
        simp
      rw [hbuf]
      show decompressGo (LITERAL_MARKER :: chunk.length :: (chunk ++ (frest ++ rest))).length
          (LITERAL_MARKER :: chunk.length :: (chunk ++ (frest ++ rest)))
        = .ok (lit.map (fun b => Char.ofNat b) ++ tail)
      rw [List.length_cons]
      simp only [decompressGo, if_pos rfl]
      have hnlt : ¬ ((chunk ++ (frest ++ rest)).length < chunk.length) := by
        simp only [List.length_append]
        omega
      rw [if_neg hnlt]
      rw [List.take_left, List.drop_left]
      have hfuel : (frest ++ rest).length ≤ (chunk.length :: (chunk ++ (frest ++ rest))).length := by
        simp
        omega
      rw [decompress_fuel _ _ hfuel, hrec]
      rw [utf8Decode_ascii (chunk.length + 1) chunk (by omega)
        (fun x hx => hb x (List.mem_of_mem_take hx))]
      have hsplit : chunk.map (fun b => Char.ofNat b) ++
          ((lit.drop 255).map (fun b => Char.ofNat b) ++ tail)
          = lit.map (fun b => Char.ofNat b) ++ tail := by
        rw [← List.append_assoc, hchunk, ← List.map_append, List.take_append_drop]
      simp only [hsplit]
      simp

/-- Decompressing an in-range dictionary index prepends its entry. -/
theorem decompress_index (i : Nat) (rest : List Nat) (tail : List Char)
    (hi : i < CODEBOOK.length) (hrest : decompress rest = .ok tail) :
    decompress (i :: rest) = .ok ((CODEBOOK.getD i "").toList ++ tail) := by
  have hne1 : ¬ (i = LITERAL_MARKER) := by
    have hlen : CODEBOOK.length = 254 := by decide
    simp only [LITERAL_MARKER]
    omega
  have hne2 : ¬ (i = 0xFF) := by
    have hlen : CODEBOOK.length = 254 := by decide
    omega
  have hne3 : ¬ (i ≥ CODEBOOK.length) := by omega
  cases rest with
  | nil =>
    have htail : tail = [] := by
      have h0 : decompress ([] : List Nat) = .ok ([] : List Char) := rfl
      rw [h0] at hrest
      cases hrest
      rfl
    subst htail
    show decompressGo 1 [i] = _
    simp only [decompressGo]
    rw [if_neg hne1, if_neg hne2, if_neg hne3]
  | cons r rs =>
    show decompressGo (i :: r :: rs).length (i :: r :: rs) = _
    have hl : (i :: r :: rs).length = (r :: rs).length + 1 := by simp
    rw [hl]
    simp only [decompressGo]
    rw [if_neg hne1, if_neg hne2, if_neg hne3]
    rw [decompress_fuel (r :: rs).length (r :: rs) (Nat.le_refl _), hrest]

/-- ASCII round trip of the main compression loop. -/
theorem compressGo_roundtrip (hchk : trieOkF 8 [] trie = true) :
    ∀ (n : Nat) (t : List Char) (fuel : Nat) (lit : List Nat),
    t.length ≤ n → t.length ≤ fuel →
    (∀ c ∈ t, c.toNat < 128) → (∀ b ∈ lit, b < 128) →
    decompress (compressGo fuel lit t)
      = .ok (lit.map (fun b => Char.ofNat b) ++ t) := by
  intro n
  induction n with
  | zero =>
    intro t fuel lit hn _ _ hlit
    have ht : t = [] := List.length_eq_zero.mp (by omega)
    subst ht
    have hflush := decompress_flush (lit.length + 1) lit [] [] (by omega) hlit (by rfl)
    cases fuel with
    | zero => simpa using hflush
    | succ f => simpa using hflush
  | succ m ih =>
    intro t fuel lit hn hfuel hascii hlit
    cases t with
    | nil =>
      have hflush := decompress_flush (lit.length + 1) lit [] [] (by omega) hlit (by rfl)
      cases fuel with
      | zero => simpa using hflush
      | succ f => simpa using hflush
    | cons c cs =>
      cases fuel with
      | zero => simp at hfuel
      | succ f =>
        simp only [compressGo]
        cases hfb : findBest trie (c :: cs) MAX_ENTRY_LEN 0 none with
        | none =>
          show decompress (compressGo f (lit ++ litBytes c) cs)
            = .ok (lit.map (fun b => Char.ofNat b) ++ c :: cs)
          have hc : c.toNat < 128 := hascii c (by simp)
          have hlb : litBytes c = [c.toNat] := by
            simp only [litBytes]
            rw [if_neg (by omega)]
          rw [hlb]
          have hrec := ih cs f (lit ++ [c.toNat]) (by simp at hn ⊢; omega)
            (by simp at hfuel ⊢; omega)
            (fun x hx => hascii x (by simp [hx]))
            (by
              intro x hx
              rcases List.mem_append.mp hx with h | h
              · exact hlit x h
              · simp at h
                omega)
          rw [hrec]
          simp [Char.ofNat_toNat]
        | some p =>
          obtain ⟨i, l⟩ := p
          show decompress (flushLiterals (lit.length + 1) lit ++ [i] ++
              compressGo f [] ((c :: cs).drop l))
            = .ok (lit.map (fun b => Char.ofNat b) ++ c :: cs)
          have hspec := findBest_top hchk (c :: cs) i l hfb
          have hl1 := hspec.1
          have hll := hspec.2.1
          have hentry := hspec.2.2.1.1
          have hilt := hspec.2.2.2
          have hrec := ih ((c :: cs).drop l) f []
            (by simp at hn ⊢; omega)
            (by simp at hfuel ⊢; omega)
            (fun x hx => hascii x (List.mem_of_mem_drop hx))
            (by intro x hx; simp at hx)
          simp only [List.map_nil, List.nil_append] at hrec
          have hidx := decompress_index i (compressGo f [] ((c :: cs).drop l))
            ((c :: cs).drop l) hilt hrec
          have hcons : flushLiterals (lit.length + 1) lit ++ [i] ++ compressGo f [] ((c :: cs).drop l)
              = flushLiterals (lit.length + 1) lit ++ (i :: compressGo f [] ((c :: cs).drop l)) := by
            rw [List.append_assoc]
            rfl
          rw [hcons]
          have hflush := decompress_flush (lit.length + 1) lit
            (i :: compressGo f [] ((c :: cs).drop l))
            ((CODEBOOK.getD i "").toList ++ (c :: cs).drop l)
            (by omega) hlit hidx
          rw [hflush, hentry]
          rw [List.take_append_drop]

-- ---------------------------------------------------------------------------
-- Concrete checker runs and claim theorems (C3, C9, C10)
-- ---------------------------------------------------------------------------

theorem codebook_length : CODEBOOK.length = 254 := by decide

theorem trie_ok : trieOkF 8 [] trie = true := by decide

/-- C3 counterexample: a character outside 7-bit ASCII breaks the round
trip.  compress pushes the raw Latin-1 byte 0xE9 of 'é', but decompress
reads literal runs as UTF-8, where the lone byte 0xE9 is an invalid
(truncated) sequence decoded as U+FFFD. -/
theorem compress_roundtrip_non_ascii_fails :
    compress "é" = [0xFE, 1, 0xE9] ∧
    decompress (compress "é") = .ok [Char.ofNat 0xFFFD] ∧
    decompress (compress "é") ≠ .ok "é".toList := by
  refine ⟨by decide, by decide, by decide⟩

/-- C3 amended: for every text whose characters are all 7-bit ASCII,
decompress (compress text) returns exactly the text. -/
theorem compress_roundtrip_ascii (text : String)
    (hascii : ∀ c ∈ text.toList, c.toNat < 128) :
    decompress (compress text) = .ok text.toList := by
  have h := compressGo_roundtrip trie_ok text.toList.length text.toList
    text.toList.length [] (Nat.le_refl _) (Nat.le_refl _) hascii
    (by intro b hb; simp at hb)
  simpa [compress] using h

/-- Witness for the amended C3 at "Hello". -/
theorem compress_roundtrip_ascii_check :
    decompress (compress "Hello") = .ok "Hello".toList :=
  compress_roundtrip_ascii "Hello" (by decide)

/-- C9 counterexample: on input "ple", whose maximal match is the entry
duplicated at indices 0x93 and 0xA2, compress emits 0xA2 — the latest
(highest) index — not the earliest 0x93 that the claim states (buildTrie's
`node.index = i` overwrites on duplicates). -/
theorem compress_tie_lowest_fails :
    compress "ple" = [0xA2] ∧
    CODEBOOK.getD 0x93 "" = "ple" ∧ CODEBOOK.getD 0xA2 "" = "ple" ∧
    (0xA2 : Nat) ≠ 0x93 := by
  refine ⟨by decide, by decide, by decide, by decide⟩

/-- C9 amended: whenever the per-position match selection of compress
returns an index for a matched prefix, that index points at a codebook
entry equal to the matched string and is the latest-registered (highest)
such index. -/
theorem compress_tie_latest (t : List Char) (i l : Nat)
    (hres : findBest trie t MAX_ENTRY_LEN 0 none = some (i, l)) :
    (CODEBOOK.getD i "").toList = t.take l ∧
    ∀ j, j < CODEBOOK.length → (CODEBOOK.getD j "").toList = t.take l → j ≤ i := by
  have h := findBest_top trie_ok t i l hres
  exact ⟨h.2.2.1.1, h.2.2.1.2⟩

/-- Witness for the amended C9 at "ple" (the duplicated entry). -/
theorem compress_tie_latest_check :
    (CODEBOOK.getD 0xA2 "").toList = ("ple".toList).take 3 ∧
    ∀ j, j < CODEBOOK.length →
      (CODEBOOK.getD j "").toList = ("ple".toList).take 3 → j ≤ 0xA2 :=
  compress_tie_latest "ple".toList 0xA2 3 (by decide)

theorem decompressGo_no_invalid : ∀ (fuel : Nat) (buf : List Nat),
    (∀ b ∈ buf, b < 256) → decompressGo fuel buf ≠ .error .invalidIndex := by
  intro fuel
  induction fuel with
  | zero =>
    intro buf _
    cases buf <;> simp [decompressGo]
  | succ f ih =>
    intro buf hb
    have hcb : CODEBOOK.length = 254 := by decide
    match buf with
    | [] => simp [decompressGo]
    | [b] =>
      have hblt : b < 256 := hb b (by simp)
      simp only [decompressGo]
      by_cases h1 : b = LITERAL_MARKER
      · rw [if_pos h1]
        simp
      · rw [if_neg h1]
        by_cases h2 : b = 0xFF
        · rw [if_pos h2]
          simp
        · rw [if_neg h2]
          have h3 : ¬ (b ≥ CODEBOOK.length) := by
            simp only [LITERAL_MARKER] at h1
            omega
          rw [if_neg h3]
          simp
    | b :: len :: rest2 =>
      have hblt : b < 256 := hb b (by simp)
      simp only [decompressGo]
      by_cases h1 : b = LITERAL_MARKER
      · rw [if_pos h1]
        by_cases htr : rest2.length < len
        · rw [if_pos htr]
          simp
        · rw [if_neg htr]
          cases hrec : decompressGo f (rest2.drop len) with
          | error e =>
            intro hcon
            simp only [hrec] at hcon
            cases hcon
            refine ih (rest2.drop len) ?_ hrec
            intro x hx
            exact hb x (by simp [List.mem_of_mem_drop hx])
          | ok tail => simp [hrec]
      · rw [if_neg h1]
        by_cases h2 : b = 0xFF
        · rw [if_pos h2]
          simp
        · rw [if_neg h2]
          have h3 : ¬ (b ≥ CODEBOOK.length) := by
            simp only [LITERAL_MARKER] at h1
            omega
          rw [if_neg h3]
          cases hrec : decompressGo f (len :: rest2) with
          | error e =>
            intro hcon
            simp only [hrec] at hcon
            cases hcon
            refine ih (len :: rest2) ?_ hrec
            intro x hx
            exact hb x (by simp at hx ⊢; tauto)
          | ok tail => simp [hrec]

/-- C10: the codebook has exactly 254 entries (indices 0..253) and, since
0xFE and 0xFF are handled first, the invalid-codebook-index branch of
decompress is unreachable on any byte buffer. -/
theorem decompress_no_invalid_index :
    CODEBOOK.length = 254 ∧
    ∀ buf : List Nat, (∀ b ∈ buf, b < 256) →
      decompress buf ≠ .error .invalidIndex := by
  refine ⟨by decide, ?_⟩
  intro buf hb
  exact decompressGo_no_invalid buf.length buf hb

/-- Witness for C10 at the buffer [0]. -/
theorem decompress_no_invalid_index_check :
    decompress [0] ≠ .error .invalidIndex :=
  decompress_no_invalid_index.2 [0] (by intro b hb; simp at hb; omega)

-- ---------------------------------------------------------------------------
-- Byte bounds of compressor output
-- ---------------------------------------------------------------------------

theorem flushLiterals_bytes_lt : ∀ (fuel : Nat) (lit : List Nat),
    (∀ b ∈ lit, b < 256) → ∀ b ∈ flushLiterals fuel lit, b < 256 := by
  intro fuel
  induction fuel with
  | zero =>
    intro lit _ b hb
    simp [flushLiterals] at hb
  | succ f ih =>
    intro lit hlit b hb
    by_cases hnil : lit = []
    · subst hnil
      simp [flushLiterals] at hb
    · simp only [flushLiterals, if_neg hnil] at hb
      rcases List.mem_append.mp hb with h | h
      · simp only [List.mem_cons] at h
        rcases h with rfl | h
        · norm_num [LITERAL_MARKER]
        rcases h with rfl | h
        · have h1 : (lit.take 255).length = min 255 lit.length := List.length_take 255 lit
          have h2 : min 255 lit.length ≤ 255 := Nat.min_le_left _ _
          omega
        · exact hlit b (List.mem_of_mem_take h)
      · exact ih (lit.drop 255) (fun x hx => hlit x (List.mem_of_mem_drop hx)) b h

theorem compressGo_bytes_lt (hchk : trieOkF 8 [] trie = true) :
    ∀ (n : Nat) (t : List Char) (fuel : Nat) (lit : List Nat),
    t.length ≤ n →
    (∀ c ∈ t, c.toNat < 128) → (∀ b ∈ lit, b < 256) →
    ∀ b ∈ compressGo fuel lit t, b < 256 := by
  intro n
  induction n with
  | zero =>
    intro t fuel lit hn _ hlit b hb
    have ht : t = [] := List.length_eq_zero.mp (by omega)
    subst ht
    cases fuel with
    | zero => exact flushLiterals_bytes_lt _ _ hlit b (by simpa [compressGo] using hb)
    | succ f => exact flushLiterals_bytes_lt _ _ hlit b (by simpa [compressGo] using hb)
  | succ m ih =>
    intro t fuel lit hn hascii hlit b hb
    cases t with
    | nil =>
      cases fuel with
      | zero => exact flushLiterals_bytes_lt _ _ hlit b (by simpa [compressGo] using hb)
      | succ f => exact flushLiterals_bytes_lt _ _ hlit b (by simpa [compressGo] using hb)
    | cons c cs =>
      cases fuel with
      | zero => exact flushLiterals_bytes_lt _ _ hlit b (by simpa [compressGo] using hb)
      | succ f =>
        simp only [compressGo] at hb
        cases hfb : findBest trie (c :: cs) MAX_ENTRY_LEN 0 none with
        | none =>
          simp only [hfb] at hb
          have hc : c.toNat < 128 := hascii c (by simp)
          refine ih cs f (lit ++ litBytes c) (by simp at hn ⊢; omega)
            (fun x hx => hascii x (by simp [hx])) ?_ b hb
          intro x hx
          rcases List.mem_append.mp hx with h | h
          · exact hlit x h
          · have hlb : litBytes c = [c.toNat] := by
              simp only [litBytes]
              rw [if_neg (by omega)]
            rw [hlb] at h
            simp at h
            omega
        | some p =>
          obtain ⟨i, l⟩ := p
          simp only [hfb] at hb
          rcases List.mem_append.mp hb with h | h
          · rcases List.mem_append.mp h with h1 | h1
            · exact flushLiterals_bytes_lt _ _ hlit b h1
            · simp at h1
              have hi := (findBest_top hchk (c :: cs) i l hfb).2.2.2
              have hcl : CODEBOOK.length = 254 := by decide
              omega
          · have hl1 := (findBest_top hchk (c :: cs) i l hfb).1
            exact ih ((c :: cs).drop l) f [] (by simp at hn ⊢; omega)
              (fun x hx => hascii x (List.mem_of_mem_drop hx))
              (by intro x hx; simp at hx) b h

-- ---------------------------------------------------------------------------
-- UTF-8 byte encoding of ASCII strings; String round trip
-- ---------------------------------------------------------------------------

theorem utf8Bytes_ascii_list : ∀ (cs : List Char), (∀ c ∈ cs, c.toNat < 128) →
    cs.foldr (fun c acc => utf8EncodeChar c ++ acc) [] = cs.map Char.toNat := by
  intro cs
  induction cs with
  | nil => intro _; rfl
  | cons c cs ih =>
    intro h
    have hc : c.toNat < 128 := h c (by simp)
    simp only [List.foldr_cons, List.map_cons]
    rw [ih (fun x hx => h x (by simp [hx]))]
    have he : utf8EncodeChar c = [c.toNat] := by
      simp only [utf8EncodeChar]
      rw [if_pos (by omega)]
    rw [he]
    rfl

theorem utf8Bytes_ascii (s : String) (h : ∀ c ∈ s.toList, c.toNat < 128) :
    utf8Bytes s = s.toList.map Char.toNat :=
  utf8Bytes_ascii_list s.toList h

theorem mk_toList (s : String) : String.mk s.toList = s := by
  cases s
  rfl

-- ---------------------------------------------------------------------------
-- FEC strip inverts applyFec on clean data
-- ---------------------------------------------------------------------------

theorem fecEncode_decode (payload fecData : List Nat) (L : FecLevel)
    (hplt : ∀ b ∈ payload, b < 256)
    (h : fecEncode payload L = .ok fecData) :
    fecDecode fecData L = .ok payload := by
  simp only [fecEncode] at h
  by_cases hc : payload.length + LEVELS L > 255
  · rw [if_pos hc] at h
    exact absurd h (by simp)
  · rw [if_neg hc] at h
    injection h with h
    subst h
    exact (fecRound_clean payload L hplt (by omega)).2.2.2

theorem applyFec_strip (payload fecData : List Nat) (f : FecOpt)
    (hplt : ∀ b ∈ payload, b < 256)
    (h : applyFec payload f = .ok fecData) :
    fecStrip fecData f = .ok payload := by
  cases f with
  | none =>
    simp only [applyFec] at h
    injection h with h
    subst h
    rfl
  | low => exact fecEncode_decode payload fecData FecLevel.low hplt h
  | medium => exact fecEncode_decode payload fecData FecLevel.medium hplt h
  | high => exact fecEncode_decode payload fecData FecLevel.high hplt h

-- ---------------------------------------------------------------------------
-- parsePacket on a well-formed header
-- ---------------------------------------------------------------------------

theorem parse_encodeHeader (c : Compression) (f : FecOpt) (flags : Nat) (fecData : List Nat) :
    parsePacket (encodeHeader PACKET_VERSION (COMP_MAP c) (FEC_MAP f) (flags &&& 0xF) ++ fecData) =
      (match fecStrip fecData f with
      | .error e => .error e
      | .ok data =>
        match decodeBody c data with
        | .error e => .error e
        | .ok message => .ok ⟨message, PACKET_VERSION, c, f, flags &&& 0xF⟩) := by
  have hv : PACKET_VERSION < 16 := by norm_num [PACKET_VERSION]
  have hcm : COMP_MAP c < 16 := by cases c <;> norm_num [COMP_MAP]
  have hfm : FEC_MAP f < 16 := by cases f <;> norm_num [FEC_MAP]
  have hfl : flags &&& 0xF < 16 := by
    have h := Nat.and_pow_two_sub_one_eq_mod flags 4
    norm_num at h
    rw [h]
    exact Nat.mod_lt _ (by norm_num)
  have hb0 := nibble_pack PACKET_VERSION hv (COMP_MAP c) hcm
  have hb1 := nibble_pack (FEC_MAP f) hfm (flags &&& 0xF) hfl
  simp only [encodeHeader]
  rw [hb0.1, hb1.1]
  have happ : ([(PACKET_VERSION <<< 4) ||| COMP_MAP c,
      (FEC_MAP f <<< 4) ||| (flags &&& 0xF)] : List Nat) ++ fecData
      = ((PACKET_VERSION <<< 4) ||| COMP_MAP c) ::
        ((FEC_MAP f <<< 4) ||| (flags &&& 0xF)) :: fecData := rfl
  rw [happ]
  have hdec : decodeHeader (((PACKET_VERSION <<< 4) ||| COMP_MAP c) ::
      ((FEC_MAP f <<< 4) ||| (flags &&& 0xF)) :: fecData)
      = .ok ⟨PACKET_VERSION, COMP_MAP c, FEC_MAP f, flags &&& 0xF⟩ := by
    simp only [decodeHeader]
    rw [if_neg (by simp only [List.length_cons, HEADER_SIZE]; omega)]
    simp only [List.getD_cons_zero, List.getD_cons_succ]
    rw [hb0.2.1, hb0.2.2, hb1.2.1, hb1.2.2]
  simp only [parsePacket]
  rw [if_neg (by simp only [List.length_cons, HEADER_SIZE]; omega)]
  simp only [hdec]
  rw [if_neg (by simp)]
  have hcr : COMP_REVERSE (COMP_MAP c) = some c := by cases c <;> rfl
  have hfr2 : FEC_REVERSE (FEC_MAP f) = some f := by cases f <;> rfl
  simp only [hcr, hfr2]
  have hdrop : (((PACKET_VERSION <<< 4) ||| COMP_MAP c) ::
      ((FEC_MAP f <<< 4) ||| (flags &&& 0xF)) :: fecData).drop HEADER_SIZE = fecData := rfl
  rw [hdrop]

-- ---------------------------------------------------------------------------
-- C6 and C2
-- ---------------------------------------------------------------------------

/-- C6: createPacket never returns a packet longer than MAX_PACKET_SIZE
(237) bytes: every packet it returns is at most 237 bytes long, and
whenever the assembled header plus body exceeds 237 bytes it fails with
the capacity error instead of emitting the packet. -/
theorem packet_size_ceiling :
    (∀ (message : String) (opts : PacketOptions) (pkt : List Nat),
      createPacket message opts = .ok pkt → pkt.length ≤ MAX_PACKET_SIZE) ∧
    (∀ (message : String) (opts : PacketOptions) (payload fecData : List Nat),
      buildPayload message opts = .ok payload →
      applyFec payload opts.fec = .ok fecData →
      (encodeHeader PACKET_VERSION (COMP_MAP opts.compression) (FEC_MAP opts.fec)
        (opts.flags &&& 0xF) ++ fecData).length > MAX_PACKET_SIZE →
      createPacket message opts = .error .capacityError) := by
  constructor
  · intro message opts pkt hok
    simp only [createPacket] at hok
    rcases hpay : buildPayload message opts with e | payload
    · simp only [hpay] at hok
      exact absurd hok (by simp)
    · simp only [hpay] at hok
      rcases hfec : applyFec payload opts.fec with e | fecData
      · simp only [hfec] at hok
        exact absurd hok (by simp)
      · simp only [hfec] at hok
        by_cases hcap : (encodeHeader PACKET_VERSION (COMP_MAP opts.compression)
            (FEC_MAP opts.fec) (opts.flags &&& 0xF) ++ fecData).length > MAX_PACKET_SIZE
        · rw [if_pos hcap] at hok
          exact absurd hok (by simp)
        · rw [if_neg hcap] at hok
          injection hok with h
          rw [← h]
          omega
  · intro message opts payload fecData hpay hfec hcap
    simp only [createPacket, hpay, hfec]
    rw [if_pos hcap]

/-- Witness for C6: 240 ASCII bytes with no compression and no FEC give a
242-byte assembly, so createPacket fails with the capacity error. -/
theorem packet_size_ceiling_check :
    createPacket (String.mk (List.replicate 240 'A'))
      ⟨Compression.none, FecOpt.none, none, none, 0⟩ = .error .capacityError := by
  exact packet_size_ceiling.2 (String.mk (List.replicate 240 'A'))
    ⟨Compression.none, FecOpt.none, none, none, 0⟩
    (List.replicate 240 65) (List.replicate 240 65)
    (by decide) rfl (by decide)

/-- C2 counterexample: a valid option combination whose round trip loses
the message.  createPacket("Hello") with codebook compression and the
template named ok succeeds with a 3-byte packet, but parsePacket returns
the fixed template text (which is not "Hello"): codebook mode encodes the
template, never the message argument. -/
theorem packet_roundtrip_codebook_fails :
    createPacket "Hello" ⟨Compression.codebook, FecOpt.none, some "ok", none, 0⟩
      = .ok [0x12, 0x00, 0x00] ∧
    parsePacket [0x12, 0x00, 0x00]
      = .ok ⟨"I\x27m OK", PACKET_VERSION, Compression.codebook, FecOpt.none, 0⟩ ∧
    ("I\x27m OK" : String) ≠ "Hello" :=
  ⟨by decide, by decide, by decide⟩

/-- C2 (amended): for every 7-bit-ASCII text, compression none or smaz,
every FEC level and flags, if createPacket succeeds then parsePacket of
the packet succeeds and returns exactly the original message.  (Codebook
compression is excluded: it encodes a template, not the text, as the
counterexample shows; non-ASCII text already fails at the compression
layer, as the C3 counterexample shows.) -/
theorem packet_roundtrip (T : String) (opts : PacketOptions)
    (hcomp : opts.compression = Compression.smaz ∨ opts.compression = Compression.none)
    (hascii : ∀ c ∈ T.toList, c.toNat < 128)
    (pkt : List Nat) (hok : createPacket T opts = .ok pkt) :
    ∃ r : ParseResult, parsePacket pkt = .ok r ∧ r.message = T := by
  have hstep : ∃ payload, buildPayload T opts = .ok payload ∧
      (∀ b ∈ payload, b < 256) ∧ decodeBody opts.compression payload = .ok T := by
    rcases hcomp with hc | hc
    · refine ⟨compress T, by simp only [buildPayload, hc], ?_, ?_⟩
      · intro b hb
        exact compressGo_bytes_lt trie_ok T.toList.length T.toList
          T.toList.length [] (Nat.le_refl _) hascii
          (by intro x hx; simp at hx) b (by simpa [compress] using hb)
      · have hrt : decompress (compress T) = .ok T.toList := by
          have h := compressGo_roundtrip trie_ok T.toList.length T.toList
            T.toList.length [] (Nat.le_refl _) (Nat.le_refl _) hascii
            (by intro b hb; simp at hb)
          simpa [compress] using h
        rw [hc]
        simp only [decodeBody, hrt]
        rw [mk_toList]
    · have hbytes : utf8Bytes T = T.toList.map Char.toNat := utf8Bytes_ascii T hascii
      refine ⟨utf8Bytes T, by simp only [buildPayload, hc], ?_, ?_⟩
      · intro b hb
        rw [hbytes] at hb
        simp only [List.mem_map] at hb
        obtain ⟨ch, hmem, hcb⟩ := hb
        have := hascii ch hmem
        omega
      · rw [hc]
        simp only [decodeBody]
        rw [hbytes]
        rw [utf8Decode_ascii (T.toList.map Char.toNat).length (T.toList.map Char.toNat)
          (Nat.le_refl _) (by
            intro b hb
            simp only [List.mem_map] at hb
            obtain ⟨ch, hmem, hcb⟩ := hb
            have := hascii ch hmem
            omega)]
        have hmm : (T.toList.map Char.toNat).map (fun b => Char.ofNat b) = T.toList := by
          rw [List.map_map]
          have hco : (fun b => Char.ofNat b) ∘ Char.toNat = id := by
            funext ch
            simp [Char.ofNat_toNat]
          rw [hco, List.map_id]
        rw [hmm, mk_toList]
  obtain ⟨payload, hpay, hplt, hdec⟩ := hstep
  simp only [createPacket, hpay] at hok
  rcases hfec : applyFec payload opts.fec with e | fecData
  · simp only [hfec] at hok
    exact absurd hok (by simp)
  · simp only [hfec] at hok
    by_cases hcap : (encodeHeader PACKET_VERSION (COMP_MAP opts.compression)
        (FEC_MAP opts.fec) (opts.flags &&& 0xF) ++ fecData).length > MAX_PACKET_SIZE
    · rw [if_pos hcap] at hok
      exact absurd hok (by simp)
    · rw [if_neg hcap] at hok
      injection hok with hpkt
      subst hpkt
      refine ⟨⟨T, PACKET_VERSION, opts.compression, opts.fec, opts.flags &&& 0xF⟩, ?_, rfl⟩
      rw [parse_encodeHeader]
      have hstrip := applyFec_strip payload fecData opts.fec hplt hfec
      simp only [hstrip, hdec]


/-- Witness for the amended C2: the packet created for "Hello" with smaz
compression and no FEC parses back to "Hello". -/
theorem packet_roundtrip_check :
    ∃ r : ParseResult,
      parsePacket [0x11, 0x00, 0xFE, 1, 72, 1, 10, 10, 4] = .ok r ∧
      r.message = "Hello" :=
  packet_roundtrip "Hello" ⟨Compression.smaz, FecOpt.none, none, none, 0⟩
    (Or.inl rfl) (by decide) [0x11, 0x00, 0xFE, 1, 72, 1, 10, 10, 4] (by decide)

-- ===== END THEOREMS =====

end MeshXT
